import Mathlib

/-!
Verification development for the hashtag tagger (`src/tagger.ts`).

The TypeScript source is shallowly embedded: each pure function of the
source is translated into an executable Lean definition over `List Char` /
`String`, `Nat` and `ℚ` (JS numbers that are only compared and clamped are
modelled as rationals; counts and caps that the config validates to be
positive integers are modelled as `Nat`).  External collaborators
(filesystem, `gray-matter` parsing, `js-yaml` serialisation) are modelled
as explicit inputs / function parameters, exactly as the specification
treats them (opaque collaborators).
-/

/-! ## Character classes (JS regexp semantics) -/

/-- JS `\s` (whitespace) for the characters relevant here: space, tab, LF,
VT, FF, CR, NBSP, BOM, and the Unicode space separators. -/
def jsWs (c : Char) : Bool :=
  c.toNat = 32 || c.toNat = 9 || c.toNat = 10 || c.toNat = 11 ||
  c.toNat = 12 || c.toNat = 13 || c.toNat = 160 || c.toNat = 0xfeff ||
  (0x2000 ≤ c.toNat && c.toNat ≤ 0x200a) || c.toNat = 0x2028 ||
  c.toNat = 0x2029 || c.toNat = 0x202f || c.toNat = 0x205f ||
  c.toNat = 0x3000 || c.toNat = 0x1680

/-- `a`–`z`. -/
def isLowerAZ (c : Char) : Bool := 97 ≤ c.toNat && c.toNat ≤ 122

/-- `0`–`9`. -/
def isDigit09 (c : Char) : Bool := 48 ≤ c.toNat && c.toNat ≤ 57

/-- The hyphen character. -/
def isHyph (c : Char) : Bool := c = '-'

/-- A character of the slug alphabet `[a-z0-9-]`. -/
def isSlugChar (c : Char) : Bool := isLowerAZ c || isDigit09 c || isHyph c

/-- JS `.` in a regexp without the `s` flag: anything but a line terminator. -/
def isDotChar (c : Char) : Bool :=
  !(c.toNat = 10 || c.toNat = 13 || c.toNat = 0x2028 || c.toNat = 0x2029)

/-! ## List utilities shared by the embedding -/

/-- Worker for `uniqueStable` (source: `uniqueStable`, a `Set`-guarded
single pass): `seen` collects the items already emitted. -/
def uniqueStableAux {α : Type} [DecidableEq α] (seen : List α) : List α → List α
  | [] => []
  | x :: xs =>
    if x ∈ seen then uniqueStableAux seen xs
    else x :: uniqueStableAux (x :: seen) xs

/-- Source `uniqueStable`: order-preserving de-duplication. -/
def uniqueStable {α : Type} [DecidableEq α] (items : List α) : List α :=
  uniqueStableAux [] items

/-- Split a list at every occurrence of `sep` (JS `String.prototype.split`
with a single-character separator); the accumulator holds the current piece
reversed. -/
def splitOnCharAux {α : Type} [DecidableEq α] (sep : α) (acc : List α) :
    List α → List (List α)
  | [] => [acc.reverse]
  | c :: cs =>
    if c = sep then acc.reverse :: splitOnCharAux sep [] cs
    else splitOnCharAux sep (c :: acc) cs

/-- JS `s.split(sep)` for a one-character separator. -/
def splitOnChar {α : Type} [DecidableEq α] (sep : α) (l : List α) :
    List (List α) :=
  splitOnCharAux sep [] l

/-! ## Slug normalizer (source: `slugifyHashtag`) -/

/-- JS `String.prototype.trim`. -/
def jsTrim (l : List Char) : List Char :=
  ((l.dropWhile jsWs).reverse.dropWhile jsWs).reverse

/-- `replace(/^#+/g, '')` — with `^` and no `m` flag this strips only the
leading run of `#`. -/
def stripLeadingHashes (l : List Char) : List Char :=
  l.dropWhile (fun c => c.toNat = 35)

/-- `replace(/['"]/g, '')`: quote characters (codes 39 and 34) removed. -/
def stripQuotes (l : List Char) : List Char :=
  l.filter (fun c => !(c.toNat = 39 || c.toNat = 34))

/-- `replace(/&/g, ' and ')`. -/
def expandAmp (l : List Char) : List Char :=
  l.flatMap (fun c => if c.toNat = 38 then [' ', 'a', 'n', 'd', ' '] else [c])

/-- `replace(/[^a-z0-9\s-]/g, ' ')`. -/
def keepAllowedElseSpace (l : List Char) : List Char :=
  l.map (fun c => if isLowerAZ c || isDigit09 c || jsWs c || isHyph c then c else ' ')

/-- Worker for the collapse-whitespace replace step: the flag records whether the previous
character was whitespace (i.e. we are inside a run already replaced). -/
def collapseWsAux : Bool → List Char → List Char
  | _, [] => []
  | prevWs, c :: cs =>
    if jsWs c then
      if prevWs then collapseWsAux true cs else ' ' :: collapseWsAux true cs
    else c :: collapseWsAux false cs

/-- `replace(/\s+/g, ' ')`. -/
def collapseWs (l : List Char) : List Char := collapseWsAux false l

/-- `replace(/\s/g, '-')`. -/
def wsToHyphen (l : List Char) : List Char :=
  l.map (fun c => if jsWs c then '-' else c)

/-- Worker for the collapse-hyphen-runs replace step (regexp: hyphen runs to a single hyphen). -/
def collapseHyphAux : Bool → List Char → List Char
  | _, [] => []
  | prevHy, c :: cs =>
    if isHyph c then
      if prevHy then collapseHyphAux true cs else '-' :: collapseHyphAux true cs
    else c :: collapseHyphAux false cs

/-- the collapse-hyphen-runs replace step (regexp: hyphen runs to a single hyphen). -/
def collapseHyph (l : List Char) : List Char := collapseHyphAux false l

/-- Drop one leading hyphen (the `^-` branch of `replace(/^-|-$/g, '')`). -/
def dropLeadHyphen : List Char → List Char
  | [] => []
  | c :: t => if isHyph c then t else c :: t

/-- Drop one trailing hyphen (the `-$` branch of `replace(/^-|-$/g, '')`). -/
def dropTrailHyphen (l : List Char) : List Char :=
  (dropLeadHyphen l.reverse).reverse

/-- `replace(/^-|-$/g, '')`: the regexp removes one leading and one trailing
hyphen in a single global pass. -/
def stripEdgeHyphens (l : List Char) : List Char :=
  dropTrailHyphen (dropLeadHyphen l)

/-- The cleaning pipeline of `slugifyHashtag`, steps in source order. -/
def slugCore (l : List Char) : List Char :=
  stripEdgeHyphens (collapseHyph (wsToHyphen (jsTrim (collapseWs
    (keepAllowedElseSpace (expandAmp (stripQuotes (stripLeadingHashes
      (jsTrim (l.map Char.toLower))))))))))

/-- The `STOPWORDS` set of the source, in source order. -/
def STOPWORDS : List String :=
  ["a", "an", "and", "are", "as", "at", "be", "but", "by", "can", "could",
   "did", "do", "does", "for", "from", "had", "has", "have", "how", "i",
   "if", "in", "into", "is", "it", "its", "just", "like", "may", "might",
   "more", "most", "not", "of", "on", "or", "our", "should", "so", "some",
   "such", "than", "that", "the", "their", "then", "there", "these", "this",
   "those", "to", "too", "up", "use", "using", "was", "we", "were", "what",
   "when", "where", "which", "who", "why", "will", "with", "you", "your"]

/-- Source `slugifyHashtag`: normalize raw text to a slug or reject. -/
def slugifyHashtag (raw : String) : Option String :=
  let cleaned := slugCore raw.toList
  if cleaned = [] then none
  else if cleaned.length < 2 then none
  else if String.mk cleaned ∈ STOPWORDS then none
  else some (String.mk cleaned)

/-- No two adjacent hyphens. -/
def noDoubleHyphenB : List Char → Bool
  | [] => true
  | [_] => true
  | a :: b :: t => (!(isHyph a && isHyph b)) && noDoubleHyphenB (b :: t)

/-- First character (if any) is not a hyphen. -/
def noEdgeHyphenB : List Char → Bool
  | [] => true
  | c :: _ => !isHyph c

/-- The slug grammar of the specification §3/§4.1: characters in
`[a-z0-9-]`, no leading/trailing/repeated hyphen, length at least 2, not a
stopword. -/
def isSlugB (s : String) : Bool :=
  s.toList.all isSlugChar && noEdgeHyphenB s.toList &&
  noEdgeHyphenB s.toList.reverse && noDoubleHyphenB s.toList &&
  decide (2 ≤ s.toList.length) && decide (s ∉ STOPWORDS)

/-! ## Token sets and the vocabulary mapper (source: `tokeniseSlug`, `mapToCache`) -/

/-- Source `tokeniseSlug`: `new Set(slug.split('-').filter(Boolean))` — JS
sets preserve insertion order and de-duplicate. -/
def tokeniseSlug (slug : String) : List (List Char) :=
  uniqueStable ((splitOnChar '-' slug.toList).filter (fun t => !t.isEmpty))

/-- The result record of `mapToCache`. JS float scores are modelled as
exact rationals. -/
structure MapResult where
  mapped : String
  score : ℚ
  fromEntry : Option String
deriving Repr, DecidableEq

/-- The `for (const existing of cache)` loop of `mapToCache`, carrying the
running `best`/`bestScore` and performing the final threshold test. -/
def mapToCacheGo (candidate : String) (candTokens : List (List Char)) (threshold : ℚ) :
    List String → String → ℚ → MapResult
  | [], best, bestScore =>
    if threshold ≤ bestScore then ⟨best, bestScore, some best⟩
    else ⟨candidate, bestScore, none⟩
  | existing :: rest, best, bestScore =>
    if existing = candidate then ⟨existing, 1, some existing⟩
    else
      let exTokens := tokeniseSlug existing
      if exTokens.length = 0 then mapToCacheGo candidate candTokens threshold rest best bestScore
      else
        let inter := (candTokens.filter (fun t => exTokens.contains t)).length
        let union := candTokens.length + exTokens.length - inter
        let score : ℚ := if union = 0 then 0 else (inter : ℚ) / (union : ℚ)
        if bestScore < score then mapToCacheGo candidate candTokens threshold rest existing score
        else mapToCacheGo candidate candTokens threshold rest best bestScore

/-- Source `mapToCache`: map a candidate onto the closest cache entry by
Jaccard similarity over hyphen-token sets. -/
def mapToCache (candidate : String) (cache : List String) (threshold : ℚ) : MapResult :=
  let candTokens := tokeniseSlug candidate
  if candTokens.length = 0 then ⟨candidate, 0, none⟩
  else mapToCacheGo candidate candTokens threshold cache candidate 0

/-! ## Glob matching and the denylist filter
(source: `globToRegExp`, `filterNewWithDenylist`) -/

/-- Matching semantics of the `RegExp` built by source `globToRegExp`:
the pattern is anchored (`^...$`), `*` (code 42) becomes `.*`, `?`
(code 63) becomes `.`, every other character is escaped or literal.
Structural recursion on a fuel argument so that the definition evaluates
inside the kernel; every recursive call shrinks `p.length + s.length`,
so the fuel supplied by `globMatchAux` is never exhausted (see
`globMatchFuel_congr`). -/
def globMatchFuel : Nat → List Char → List Char → Bool
  | 0, _, _ => false
  | _ + 1, [], [] => true
  | _ + 1, [], _ :: _ => false
  | fuel + 1, p :: ps, s =>
    if p.toNat = 42 then
      globMatchFuel fuel ps s ||
        (match s with
         | [] => false
         | _ :: ss => globMatchFuel fuel (p :: ps) ss)
    else if p.toNat = 63 then
      match s with
      | [] => false
      | _ :: ss => globMatchFuel fuel ps ss
    else
      match s with
      | [] => false
      | d :: ss => p = d && globMatchFuel fuel ps ss

/-- Anchored glob match of pattern `p` against string `s`. -/
def globMatchAux (p s : List Char) : Bool :=
  globMatchFuel (p.length + s.length + 1) p s

/-- The fuel argument is irrelevant as long as it exceeds
`p.length + s.length`, so `globMatchAux` computes the pure glob-match
relation. -/
theorem globMatchFuel_congr : ∀ (f₁ f₂ : Nat) (p s : List Char),
    p.length + s.length < f₁ → p.length + s.length < f₂ →
    globMatchFuel f₁ p s = globMatchFuel f₂ p s := by
  intro f₁
  induction f₁ with
  | zero => intro f₂ p s h₁ h₂; omega
  | succ f ih =>
    intro f₂ p s h₁ h₂
    match f₂, p, s with
    | 0, p, s => omega
    | f₂ + 1, [], [] => rfl
    | f₂ + 1, [], _ :: _ => rfl
    | f₂ + 1, p :: ps, s =>
      simp only [globMatchFuel]
      by_cases h42 : p.toNat = 42
      · simp only [h42, if_true]
        have e₁ : globMatchFuel f ps s = globMatchFuel f₂ ps s := by
          apply ih <;> (simp at h₁ h₂ ⊢; omega)
        cases s with
        | nil => simp [e₁]
        | cons d ss =>
          have e₂ : globMatchFuel f (p :: ps) ss = globMatchFuel f₂ (p :: ps) ss := by
            apply ih <;> (simp at h₁ h₂ ⊢; omega)
          simp [e₁, e₂]
      · simp only [h42, if_false]
        by_cases h63 : p.toNat = 63
        · simp only [h63, if_true]
          cases s with
          | nil => rfl
          | cons d ss =>
            have e₂ : globMatchFuel f ps ss = globMatchFuel f₂ ps ss := by
              apply ih <;> (simp at h₁ h₂ ⊢; omega)
            simp [e₂]
        · simp only [h63, if_false]
          cases s with
          | nil => rfl
          | cons d ss =>
            have e₂ : globMatchFuel f ps ss = globMatchFuel f₂ ps ss := by
              apply ih <;> (simp at h₁ h₂ ⊢; omega)
            simp [e₂]

/-- Case-insensitive (`i` flag) anchored glob match, per `globToRegExp`. -/
def globMatches (pattern cand : String) : Bool :=
  globMatchAux (pattern.toList.map Char.toLower) (cand.toList.map Char.toLower)

/-- Source `DenylistMode`. -/
inductive DenylistMode
  | exact
  | glob
deriving Repr, DecidableEq

/-- The `{kept, denied}` pair returned by `filterNewWithDenylist`. -/
structure FilterRes where
  kept : List String
  denied : List String
deriving Repr, DecidableEq

/-- Source `filterNewWithDenylist`.  The source partitions in a single pass
pushing into `kept`/`denied`; two filters with complementary predicates
build the same two lists. -/
def filterNewWithDenylist (newItems denylist : List String) (mode : DenylistMode) : FilterRes :=
  if denylist.length = 0 then ⟨newItems, []⟩
  else
    match mode with
    | .exact =>
      ⟨newItems.filter (fun x => !denylist.contains x),
       newItems.filter (fun x => denylist.contains x)⟩
    | .glob =>
      ⟨newItems.filter (fun x => !denylist.any (fun d => globMatches d x)),
       newItems.filter (fun x => denylist.any (fun d => globMatches d x))⟩

/-! ## Code-block and URL stripping, headings, words, keywords
(source: `stripCodeBlocks`, `extractHeadings`, `extractWords`, `topKeywords`) -/

/-- Split `l` around the first occurrence of `pat`, returning the part
before and the part after the occurrence (the occurrence removed). -/
def splitFirst (pat : List Char) : List Char → Option (List Char × List Char)
  | [] => if List.isPrefixOf pat [] then some ([], []) else none
  | c :: cs =>
    if List.isPrefixOf pat (c :: cs) then some ([], (c :: cs).drop pat.length)
    else (splitFirst pat cs).map (fun q => (c :: q.1, q.2))

theorem splitFirst_length {pat : List Char} :
    ∀ {l b a : List Char}, splitFirst pat l = some (b, a) →
      pat.length + a.length ≤ l.length := by
  intro l
  induction l with
  | nil =>
    intro b a h
    simp only [splitFirst] at h
    split at h
    · rename_i hp
      have : pat <+: [] := by simpa [List.isPrefixOf_iff_prefix] using hp
      have : pat = [] := List.prefix_nil.mp this
      simp_all
    · exact absurd h (by simp)
  | cons c cs ih =>
    intro b a h
    simp only [splitFirst] at h
    split at h
    · rename_i hp
      have hpre : pat <+: c :: cs := by simpa [List.isPrefixOf_iff_prefix] using hp
      have hlen : pat.length ≤ (c :: cs).length := hpre.length_le
      have ha : a = (c :: cs).drop pat.length := by
        simp only [Option.some.injEq, Prod.mk.injEq] at h
        exact h.2.symm
      subst ha
      simp only [List.length_drop]
      omega
    · match he : splitFirst pat cs with
      | none => rw [he] at h; simp at h
      | some (b', a') =>
        rw [he] at h
        simp only [Option.map_some', Option.some.injEq, Prod.mk.injEq] at h
        have := ih he
        have : a = a' := h.2.symm ▸ rfl
        subst this
        simp only [List.length_cons]
        omega

/-- The fenced-code delimiter. -/
def fencePat : List Char := "```".toList

/-- The inline-code delimiter. -/
def tickPat : List Char := "`".toList

/-- One global, non-greedy, delimiter-to-delimiter `replace(_, ' ')` pass,
shared shape of the two replaces in source `stripCodeBlocks`: left to
right, every span from a delimiter to the next delimiter is replaced by a
single space; a delimiter without a closing delimiter matches nothing.
Structural recursion on a fuel argument so the definition evaluates in the
kernel; each recursion strictly shrinks the text, so the fuel supplied by
`stripFenced` / `stripInline` is never exhausted
(see `stripDelimFuel_congr`). -/
def stripDelimFuel (pat : List Char) : Nat → List Char → List Char
  | 0, l => l
  | fuel + 1, l =>
    match splitFirst pat l with
    | none => l
    | some (before, rest) =>
      match splitFirst pat rest with
      | none => l
      | some (_, after) => before ++ ' ' :: stripDelimFuel pat fuel after

/-- Fenced-block removal (first replace of `stripCodeBlocks`). -/
def stripFenced (l : List Char) : List Char :=
  stripDelimFuel fencePat (l.length + 1) l

/-- Inline-code removal (second replace of `stripCodeBlocks`). -/
def stripInline (l : List Char) : List Char :=
  stripDelimFuel tickPat (l.length + 1) l

/-- The fuel is irrelevant as long as it exceeds the text length. -/
theorem stripDelimFuel_congr (pat : List Char) (hp : pat ≠ []) :
    ∀ (f₁ f₂ : Nat) (l : List Char), l.length < f₁ → l.length < f₂ →
      stripDelimFuel pat f₁ l = stripDelimFuel pat f₂ l := by
  intro f₁
  induction f₁ with
  | zero => intro f₂ l h₁ h₂; omega
  | succ f ih =>
    intro f₂ l h₁ h₂
    match f₂ with
    | 0 => omega
    | f₂ + 1 =>
      simp only [stripDelimFuel]
      cases hs₁ : splitFirst pat l with
      | none => rfl
      | some pr =>
        cases pr with
        | mk before rest =>
          dsimp only
          cases hs₂ : splitFirst pat rest with
          | none => rfl
          | some pr₂ =>
            cases pr₂ with
            | mk mid after =>
              have hplen : 1 ≤ pat.length := by
                cases pat with
                | nil => exact absurd rfl hp
                | cons a b => simp
              have hl₁ := splitFirst_length hs₁
              have hl₂ := splitFirst_length hs₂
              have he : stripDelimFuel pat f after = stripDelimFuel pat f₂ after := by
                apply ih <;> omega
              simp [he]

/-- Source `stripCodeBlocks`: fenced blocks first, then inline spans. -/
def stripCodeBlocks (markdown : List Char) : List Char :=
  stripInline (stripFenced markdown)

/-- Length (7 or 8) of a literal `http://` / `https://` scheme prefix of
`l`; the regexp alternative `https?` tries the longer variant first. -/
def urlSchemeLen (l : List Char) : Option Nat :=
  if List.isPrefixOf ("https://".toList) l then some 8
  else if List.isPrefixOf ("http://".toList) l then some 7
  else none

theorem urlSchemeLen_pos {l : List Char} {n : Nat} (h : urlSchemeLen l = some n) :
    1 ≤ n := by
  unfold urlSchemeLen at h
  split at h
  · simp only [Option.some.injEq] at h; omega
  · split at h
    · simp only [Option.some.injEq] at h; omega
    · simp at h

/-- The URL-erasing replace of source `extractWords` (regexp: an
`http`/`https` scheme followed by at least one non-whitespace character,
the whole maximal non-whitespace run replaced by one space); on no match
scanning advances one character, as the regexp engine does.  Fuel-powered
structural recursion as above (see `stripUrlsFuel_congr`). -/
def stripUrlsFuel : Nat → List Char → List Char
  | 0, l => l
  | fuel + 1, l =>
    match l with
    | [] => []
    | c :: cs =>
      match urlSchemeLen (c :: cs) with
      | some n =>
        match (c :: cs).drop n with
        | [] => c :: stripUrlsFuel fuel cs
        | d :: ds =>
          if jsWs d then c :: stripUrlsFuel fuel cs
          else ' ' :: stripUrlsFuel fuel ((d :: ds).dropWhile (fun e => !jsWs e))
      | none => c :: stripUrlsFuel fuel cs

/-- Source `extractWords` URL removal. -/
def stripUrls (l : List Char) : List Char := stripUrlsFuel (l.length + 1) l

/-- The fuel of `stripUrlsFuel` is irrelevant as long as it exceeds the
text length. -/
theorem stripUrlsFuel_congr :
    ∀ (f₁ f₂ : Nat) (l : List Char), l.length < f₁ → l.length < f₂ →
      stripUrlsFuel f₁ l = stripUrlsFuel f₂ l := by
  intro f₁
  induction f₁ with
  | zero => intro f₂ l h₁ h₂; omega
  | succ f ih =>
    intro f₂ l h₁ h₂
    match f₂ with
    | 0 => omega
    | f₂ + 1 =>
      simp only [stripUrlsFuel]
      cases l with
      | nil => rfl
      | cons c cs =>
        have hcs : stripUrlsFuel f cs = stripUrlsFuel f₂ cs := by
          apply ih <;> (simp at h₁ h₂ ⊢; omega)
        cases hu : urlSchemeLen (c :: cs) with
        | none => simp only [hu, hcs]
        | some n =>
          simp only [hu]
          cases hr : (c :: cs).drop n with
          | nil => simp only [hr, hcs]
          | cons d ds =>
            simp only [hr]
            have hn := urlSchemeLen_pos hu
            have hlen : (d :: ds).length = (c :: cs).length - n := by
              rw [← hr]; simp
            have hdw : ((d :: ds).dropWhile (fun e => !jsWs e)).length ≤ (d :: ds).length :=
              (List.dropWhile_sublist (fun e => !jsWs e)).length_le
            have hrem : stripUrlsFuel f ((d :: ds).dropWhile (fun e => !jsWs e)) =
                stripUrlsFuel f₂ ((d :: ds).dropWhile (fun e => !jsWs e)) := by
              apply ih <;> (simp only [List.length_cons] at h₁ h₂ hlen hdw ⊢; omega)
            by_cases hwd : jsWs d
            · simp [hwd, hcs]
            · simp [hwd] at hrem
              simp [hwd, hrem]

/-- Strip trailing JS whitespace. -/
def dropTrailWs (l : List Char) : List Char :=
  (l.reverse.dropWhile jsWs).reverse

/-- One line against the heading regexp `1-6 hash marks, whitespace,
lazy nonempty dot-capture, optional trailing whitespace, end`; returns the
captured group.  A lazy nonempty capture before `optional whitespace + end`
captures from the first character after the whitespace run up to the last
non-whitespace character; when everything after the hash marks is
whitespace, the capture degenerates to the rightmost dot-capable character
provided at least one whitespace character precedes it. -/
def parseHeading (line : List Char) : Option (List Char) :=
  let hashes := (line.takeWhile (fun c => c.toNat = 35)).length
  if 1 ≤ hashes ∧ hashes ≤ 6 then
    match line.drop hashes with
    | [] => none
    | c :: rest0 =>
      if jsWs c then
        let core := dropTrailWs ((c :: rest0).dropWhile jsWs)
        if core.isEmpty then
          match (c :: rest0).reverse.dropWhile (fun d => !isDotChar d) with
          | d :: _ :: _ => some [d]
          | _ => none
        else if core.all isDotChar then some core else none
      else none
  else none

/-- Source `extractHeadings`: split on newlines, keep the capture of every
line matching the heading regexp. -/
def extractHeadings (markdown : String) : List String :=
  ((splitOnChar '\n' markdown.toList).filterMap parseHeading).map String.mk

/-- Source `extractWords`: lowercase, strip URLs, non-`[a-z0-9\s-]` to
space, collapse whitespace, trim, split on single spaces, keep words of
length at least 3 that are not stopwords. -/
def wordsOfChars (l : List Char) : List String :=
  let cleaned := jsTrim (collapseWs (keepAllowedElseSpace (stripUrls
    (l.map Char.toLower))))
  (((splitOnChar ' ' cleaned).map String.mk).filter
    (fun w => 3 ≤ w.length)).filter (fun w => decide (w ∉ STOPWORDS))

/-- Source `extractWords` applied to a string. -/
def extractWords (text : String) : List String := wordsOfChars text.toList

/-- The frequency map of `topKeywords`: JS `Map` keeps first-insertion
order, and `set` on a present key updates in place. -/
def bumpCount : List (String × Nat) → String → List (String × Nat)
  | [], w => [(w, 1)]
  | (x, n) :: t, w => if x = w then (x, n + 1) :: t else (x, n) :: bumpCount t w

/-- Word-frequency pairs in first-occurrence order. -/
def countsList (ws : List String) : List (String × Nat) :=
  ws.foldl bumpCount []

/-- Stable insertion into a count-descending list: the inserted element
comes from earlier in the original order, so it goes before every
strictly-smaller count and after every count at least as large. -/
def insertByCountDesc (x : String × Nat) : List (String × Nat) → List (String × Nat)
  | [] => [x]
  | y :: ys => if y.2 ≤ x.2 then x :: y :: ys else y :: insertByCountDesc x ys

/-- JS `sort((a, b) => b[1] - a[1])` is a stable descending sort by count;
the stable descending permutation is unique, so stable insertion sort
computes it. -/
def sortByCountDesc : List (String × Nat) → List (String × Nat)
  | [] => []
  | x :: xs => insertByCountDesc x (sortByCountDesc xs)

/-- Source `topKeywords`: the `limit` highest-frequency words, ties by
first occurrence (`slice(0, Math.max(0, limit))` with a `Nat` limit is
`take limit`). -/
def topKeywords (text : String) (limit : Nat) : List String :=
  ((sortByCountDesc (countsList (extractWords text))).take limit).map Prod.fst

/-- The raw candidate list of `processFile` (its line building
`rawCandidates`): title, headings, pre-existing `tags`, ranked keywords of
the code-stripped body; de-duplicated and capped. -/
def extractRawCandidates (title content : String) (tags : List String)
    (keywordLimit candidateLimit : Nat) : List String :=
  (uniqueStable ([title] ++ extractHeadings content ++ tags ++
    topKeywords (String.mk (stripCodeBlocks content.toList)) keywordLimit)).take
    candidateLimit

/-! ## The document metadata model and `processFile`
(source: `processFile`, `toYamlFrontmatter` is an external serializer) -/

/-- A frontmatter value.  Only string values and string-array values are
inspected by the source (`title`, `tags`, `hashtags`); everything else is
opaque. -/
inductive MetaVal
  | str (s : String)
  | strList (l : List String)
  | other (tag : Nat)
deriving Repr, DecidableEq

/-- JS object property write `fm[k] = v`: an existing key keeps its
position and is overwritten, a new key is appended. -/
def setKey (fm : List (String × MetaVal)) (k : String) (v : MetaVal) :
    List (String × MetaVal) :=
  if fm.any (fun p => p.1 = k) then
    fm.map (fun p => if p.1 = k then (k, v) else p)
  else fm ++ [(k, v)]

/-- `fm['hashtags']` guarded by `isStringArray` (source lines reading
`existingHashtagsRaw`). -/
def getHashtagsRaw (fm : List (String × MetaVal)) : Option (List String) :=
  match List.lookup ("hashtags") fm with
  | some (MetaVal.strList l) => some l
  | _ => none

/-- JS `trim` on a string. -/
def strTrim (s : String) : String := String.mk (jsTrim s.toList)

/-- Source `getTitleFromFrontmatter`. -/
def getTitleFromFrontmatter (fm : List (String × MetaVal)) : Option String :=
  match List.lookup ("title") fm with
  | some (MetaVal.str t) => if strTrim t = ("") then none else some (strTrim t)
  | _ => none

/-- `fm['tags']` guarded by `isStringArray`. -/
def getTags (fm : List (String × MetaVal)) : List String :=
  match List.lookup ("tags") fm with
  | some (MetaVal.strList l) => l
  | _ => []

/-- All intermediate lists of one `processFile` run (its pure core,
source lines from `existingHashtags` to `added`). -/
structure ProcessResult where
  existing : List String
  generatedAll : List String
  kept : List String
  denied : List String
  mappedNew : List String
  combined : List String
  added : List String
deriving Repr, DecidableEq

/-- The pure candidate-to-final-labels pipeline of `processFile`:
normalize existing hashtags, normalize candidates, denylist-filter, map
against the vocabulary, merge with cap, compute `added`. -/
def processCore (existingRaw rawCandidates denylist : List String)
    (mode : DenylistMode) (cache : List String) (threshold : ℚ)
    (maxCount : Nat) : ProcessResult :=
  let existing := uniqueStable (existingRaw.filterMap slugifyHashtag)
  let generatedAll := uniqueStable (rawCandidates.filterMap slugifyHashtag)
  let denyRes := filterNewWithDenylist generatedAll denylist mode
  let mappedNew := denyRes.kept.map (fun c => (mapToCache c cache threshold).mapped)
  let combined := (uniqueStable (existing ++ mappedNew)).take maxCount
  let added := combined.filter (fun h => !existing.contains h)
  ⟨existing, generatedAll, denyRes.kept, denyRes.denied, mappedNew, combined, added⟩

/-- The `{changed, added, final}` record returned by `processFile`. -/
structure ProcessOutcome where
  changed : Bool
  added : List String
  final : List String
deriving Repr, DecidableEq

/-- `content.replace` of one-or-more leading newlines by nothing
(source line building `newRaw`). -/
def stripLeadingNewlines (s : String) : String :=
  String.mk (s.toList.dropWhile (fun c => c = '\n'))

/-- The body part of the written document: leading newlines stripped, one
newline appended (source line building `newRaw`). -/
def writeBackBody (content : String) : String :=
  stripLeadingNewlines content ++ ("\n")

/-- The metadata written back: only the `hashtags` key is assigned
(source `fm['hashtags'] = combined`). -/
def writeBackMeta (fm : List (String × MetaVal)) (combined : List String) :
    List (String × MetaVal) :=
  setKey fm ("hashtags") (MetaVal.strList combined)

/-- The tail of `processFile`: no additions means unchanged; a rewrite
identical to the original raw text means unchanged; otherwise changed. -/
def finishProcess (raw newRaw : String) (added combined : List String) :
    ProcessOutcome :=
  if added.isEmpty then ⟨false, [], combined⟩
  else if newRaw = raw then ⟨false, [], combined⟩
  else ⟨true, added, combined⟩

/-- Full `processFile` on one parsed document `(fm, content)`:
`serialize` stands for the external `toYamlFrontmatter`-plus-body
reserialisation, `fallbackTitle` for the filename-derived title fallback,
`raw` for the original file text. -/
def processFileModel (serialize : List (String × MetaVal) → String → String)
    (fallbackTitle raw : String) (fm : List (String × MetaVal))
    (content : String) (denylist : List String) (mode : DenylistMode)
    (cache : List String) (threshold : ℚ)
    (maxCount keywordLimit candidateLimit : Nat) : ProcessOutcome :=
  let existingRaw := (getHashtagsRaw fm).getD []
  let title := (getTitleFromFrontmatter fm).getD fallbackTitle
  let cands := extractRawCandidates title content (getTags fm) keywordLimit candidateLimit
  let r := processCore existingRaw cands denylist mode cache threshold maxCount
  let newRaw := serialize (writeBackMeta fm r.combined) (writeBackBody content)
  finishProcess raw newRaw r.added r.combined

/-! ## Configuration loading (source: `loadConfig`, `clampNumber`) -/

/-- Raw configuration file: `none` models an absent field, a field of the
wrong type, or (for numbers) a non-finite value — exactly the cases the
source's `typeof`/`isFinite`/`isStringArray` guards send to the default. -/
structure TaggerConfigFile where
  contentDir : Option String
  contentGlob : Option String
  min : Option ℚ
  max : Option ℚ
  denylist : Option (List String)
  denylistMode : Option String
  cacheFile : Option String
  cacheSimilarityThreshold : Option ℚ
  verboseRemapLimit : Option ℚ
  warningSuggestionLimit : Option ℚ
  candidateLimit : Option ℚ
  keywordLimit : Option ℚ
  extraWordScanLimit : Option ℚ

/-- Source `RequiredTaggerConfig`. -/
structure RequiredTaggerConfig where
  contentDir : String
  contentGlob : Option String
  min : ℚ
  max : ℚ
  denylist : List String
  denylistMode : DenylistMode
  cacheFile : String
  cacheSimilarityThreshold : ℚ
  verboseRemapLimit : ℚ
  warningSuggestionLimit : ℚ
  candidateLimit : ℚ
  keywordLimit : ℚ
  extraWordScanLimit : ℚ
deriving Repr, DecidableEq

/-- Source `clampNumber`. -/
def clampNumber (v mn mx : ℚ) : ℚ := max mn (min mx v)

/-- The `defaults` record of `loadConfig`. -/
def defaultsConfig : RequiredTaggerConfig :=
  ⟨("src/content/blog"), none, 3, 12, [], DenylistMode.exact,
   ("src/scripts/tagger/.hashtags-cache.json"), 3 / 5, 25, 10, 500, 30, 300⟩

/-- `typeof raw.f === 'string' && raw.f.trim() ? raw.f.trim() : default`. -/
def strFieldOr (o : Option String) (d : String) : String :=
  match o with
  | some s => if strTrim s = ("") then d else strTrim s
  | none => d

/-- Source `loadConfig` on an already-read configuration value (`none` is
a missing config file, which `readJsonFile` maps to `null`).  Denylist
entries are slug-normalized here regardless of `denylistMode`. -/
def loadConfig (raw : Option TaggerConfigFile) :
    Except String RequiredTaggerConfig :=
  match raw with
  | none => Except.ok defaultsConfig
  | some r =>
    let contentDir := strFieldOr r.contentDir defaultsConfig.contentDir
    let contentGlob :=
      match r.contentGlob with
      | some s => if strTrim s = ("") then defaultsConfig.contentGlob else some (strTrim s)
      | none => defaultsConfig.contentGlob
    let denylist :=
      match r.denylist with
      | some l => l.filterMap slugifyHashtag
      | none => []
    let mode : DenylistMode :=
      match r.denylistMode with
      | some s =>
        if s = ("glob") then DenylistMode.glob
        else if s = ("exact") then DenylistMode.exact
        else defaultsConfig.denylistMode
      | none => defaultsConfig.denylistMode
    let minV := r.min.getD defaultsConfig.min
    let maxV := r.max.getD defaultsConfig.max
    let cacheFile := strFieldOr r.cacheFile defaultsConfig.cacheFile
    let thr :=
      match r.cacheSimilarityThreshold with
      | some v => clampNumber v 0 1
      | none => defaultsConfig.cacheSimilarityThreshold
    let vrl := r.verboseRemapLimit.getD defaultsConfig.verboseRemapLimit
    let wsl := r.warningSuggestionLimit.getD defaultsConfig.warningSuggestionLimit
    let cl := r.candidateLimit.getD defaultsConfig.candidateLimit
    let kl := r.keywordLimit.getD defaultsConfig.keywordLimit
    let ewsl := r.extraWordScanLimit.getD defaultsConfig.extraWordScanLimit
    if minV < 1 then Except.error ("Config min must be >= 1")
    else if maxV < minV then Except.error ("Config max must be >= min")
    else Except.ok ⟨contentDir, contentGlob, minV, maxV, denylist, mode,
      cacheFile, thr, vrl, wsl, cl, kl, ewsl⟩

/-! ## Vocabulary cache loading (source: `readJsonFile`, `loadOrCreateCache`) -/

/-- Outcome of attempting to read and JSON-parse a file: the file may be
absent (`ENOENT`), unreadable or unparsable, or parsed to a value. -/
inductive JsonReadResult (α : Type)
  | missing
  | malformed (msg : String)
  | value (v : α)

/-- Source `readJsonFile`: `ENOENT` becomes `null`; every other failure
(including a JSON parse error) is rethrown wrapped. -/
def readJsonFile {α : Type} (filePath : String) :
    JsonReadResult α → Except String (Option α)
  | JsonReadResult.missing => Except.ok none
  | JsonReadResult.malformed msg =>
    Except.error (("Failed to read JSON: ") ++ filePath ++ (": ") ++ msg)
  | JsonReadResult.value v => Except.ok (some v)

/-- The parsed shape of the cache file as the source checks it:
`existing?.version === 1 && Array.isArray(existing.hashtags)`. -/
structure CacheFileJson where
  version : Option Nat
  hashtags : Option (List String)

/-- Source `loadOrCreateCache`: a parse (or non-`ENOENT` read) error
propagates; a missing file or a shape-check failure falls back to
`buildCache`, whose filesystem scan result is the `rebuilt` parameter. -/
def loadOrCreateCache (cacheFilePath : String)
    (read : JsonReadResult CacheFileJson) (rebuilt : List String) :
    Except String (List String) :=
  match readJsonFile cacheFilePath read with
  | Except.error e => Except.error e
  | Except.ok none => Except.ok rebuilt
  | Except.ok (some j) =>
    if j.version = some 1 ∧ j.hashtags.isSome = true then
      Except.ok (j.hashtags.getD [])
    else Except.ok rebuilt

/-! ## Lemmas about `uniqueStable` -/

theorem mem_uniqueStableAux {α : Type} [DecidableEq α] {l : List α} :
    ∀ {seen : List α} {x : α},
      (x ∈ uniqueStableAux seen l ↔ x ∈ l ∧ x ∉ seen) := by
  induction l with
  | nil => intro seen x; simp [uniqueStableAux]
  | cons y ys ih =>
    intro seen x
    simp only [uniqueStableAux]
    by_cases hy : y ∈ seen
    · simp only [hy, if_true, ih, List.mem_cons]
      constructor
      · rintro ⟨hx, hs⟩; exact ⟨Or.inr hx, hs⟩
      · rintro ⟨hx | hx, hs⟩
        · exact absurd (hx ▸ hy) hs
        · exact ⟨hx, hs⟩
    · simp only [hy, if_false, List.mem_cons, ih]
      constructor
      · rintro (rfl | ⟨hx, hs⟩)
        · exact ⟨Or.inl rfl, hy⟩
        · exact ⟨Or.inr hx, fun hc => hs (Or.inr hc)⟩
      · rintro ⟨rfl | hx, hs⟩
        · exact Or.inl rfl
        · by_cases hxy : x = y
          · exact Or.inl hxy
          · exact Or.inr ⟨hx, by simp [hxy, hs]⟩

theorem mem_uniqueStable {α : Type} [DecidableEq α] {l : List α} {x : α} :
    x ∈ uniqueStable l ↔ x ∈ l := by
  simp [uniqueStable, mem_uniqueStableAux]

theorem nodup_uniqueStableAux {α : Type} [DecidableEq α] {l : List α} :
    ∀ {seen : List α}, (uniqueStableAux seen l).Nodup := by
  induction l with
  | nil => intro seen; simp [uniqueStableAux]
  | cons y ys ih =>
    intro seen
    simp only [uniqueStableAux]
    by_cases hy : y ∈ seen
    · simpa [hy] using ih
    · simp only [hy, if_false, List.nodup_cons]
      refine ⟨fun hc => ?_, ih⟩
      have := mem_uniqueStableAux.mp hc
      simp at this

theorem nodup_uniqueStable {α : Type} [DecidableEq α] {l : List α} :
    (uniqueStable l).Nodup := nodup_uniqueStableAux

theorem uniqueStableAux_congr {α : Type} [DecidableEq α] {l : List α} :
    ∀ {s₁ s₂ : List α}, (∀ x, x ∈ s₁ ↔ x ∈ s₂) →
      uniqueStableAux s₁ l = uniqueStableAux s₂ l := by
  induction l with
  | nil => intro s₁ s₂ h; rfl
  | cons y ys ih =>
    intro s₁ s₂ h
    simp only [uniqueStableAux]
    by_cases hy : y ∈ s₁
    · simp only [hy, (h y).mp hy, if_true]
      exact ih h
    · have hy₂ : y ∉ s₂ := fun hc => hy ((h y).mpr hc)
      simp only [hy, hy₂, if_false]
      refine congrArg _ (ih ?_)
      intro x
      simp only [List.mem_cons]
      exact or_congr Iff.rfl (h x)

theorem uniqueStableAux_append {α : Type} [DecidableEq α] (l : List α) :
    ∀ (r seen : List α),
      uniqueStableAux seen (l ++ r) =
        uniqueStableAux seen l ++ uniqueStableAux (l.reverse ++ seen) r := by
  induction l with
  | nil => intro r seen; rfl
  | cons y ys ih =>
    intro r seen
    simp only [List.cons_append, uniqueStableAux]
    by_cases hy : y ∈ seen
    · simp only [hy, if_true, List.append_eq]
      rw [ih]
      refine congrArg _ (uniqueStableAux_congr ?_)
      intro x
      simp only [List.mem_append, List.mem_reverse, List.mem_cons]
      constructor
      · tauto
      · intro h
        rcases h with h | h
        · rcases h with rfl | h
          · exact Or.inr hy
          · exact Or.inl h
        · exact Or.inr h
    · simp only [hy, if_false, List.append_eq]
      rw [List.cons_append, ih]
      refine congrArg _ (congrArg _ (uniqueStableAux_congr ?_))
      intro x
      simp only [List.mem_append, List.mem_reverse, List.mem_cons]
      tauto

theorem uniqueStableAux_of_nodup {α : Type} [DecidableEq α] {l : List α} :
    ∀ {seen : List α}, l.Nodup → (∀ x ∈ l, x ∉ seen) →
      uniqueStableAux seen l = l := by
  induction l with
  | nil => intro seen _ _; rfl
  | cons y ys ih =>
    intro seen hn hd
    simp only [uniqueStableAux]
    have hy : y ∉ seen := hd y (List.mem_cons_self y ys)
    simp only [hy, if_false]
    refine congrArg _ (ih (List.nodup_cons.mp hn).2 ?_)
    intro x hx
    simp only [List.mem_cons]
    rintro (rfl | hc)
    · exact (List.nodup_cons.mp hn).1 hx
    · exact hd x (List.mem_cons_of_mem _ hx) hc

theorem uniqueStableAux_nil_of_sub {α : Type} [DecidableEq α] {r : List α} :
    ∀ {seen : List α}, (∀ x ∈ r, x ∈ seen) → uniqueStableAux seen r = [] := by
  induction r with
  | nil => intro seen _; rfl
  | cons y ys ih =>
    intro seen h
    simp only [uniqueStableAux, h y (List.mem_cons_self y ys), if_true]
    exact ih fun x hx => h x (List.mem_cons_of_mem _ hx)

/-- `uniqueStable` on a list with a duplicate-free prefix keeps the prefix
and appends the de-duplicated unseen remainder. -/
theorem uniqueStable_append_of_nodup {α : Type} [DecidableEq α]
    {l r : List α} (hn : l.Nodup) :
    uniqueStable (l ++ r) = l ++ uniqueStableAux (l.reverse ++ []) r := by
  unfold uniqueStable
  rw [uniqueStableAux_append]
  rw [uniqueStableAux_of_nodup hn (by simp)]

/-- When everything in `r` already occurs in the duplicate-free `l`,
`uniqueStable (l ++ r) = l`. -/
theorem uniqueStable_absorb {α : Type} [DecidableEq α]
    {l r : List α} (hn : l.Nodup) (hr : ∀ x ∈ r, x ∈ l) :
    uniqueStable (l ++ r) = l := by
  rw [uniqueStable_append_of_nodup hn,
    uniqueStableAux_nil_of_sub (by intro x hx; simpa using hr x hx),
    List.append_nil]

/-- `uniqueStable` of a duplicate-free list is itself. -/
theorem uniqueStable_of_nodup {α : Type} [DecidableEq α] {l : List α}
    (hn : l.Nodup) : uniqueStable l = l :=
  uniqueStableAux_of_nodup hn (by simp)

/-! ## The merge policy (claim C5) -/

/-- With the cap not above the existing count, the merge truncates the
existing labels. -/
theorem combined_of_ge {existing mN : List String} {maxC : Nat}
    (hn : existing.Nodup) (hge : maxC ≤ existing.length) :
    (uniqueStable (existing ++ mN)).take maxC = existing.take maxC := by
  rw [uniqueStable_append_of_nodup hn]
  exact List.take_append_of_le_length hge

theorem filter_not_contains_eq_nil {c e : List String} (h : ∀ x ∈ c, x ∈ e) :
    c.filter (fun x => !e.contains x) = [] := by
  apply List.filter_eq_nil_iff.mpr
  intro a ha
  have hm : a ∈ e := h a ha
  simp [List.contains, List.elem_iff, hm]

/-- C5: the final label list of `processFile` is a superset of the
document's (normalized, de-duplicated) existing labels with the existing
labels first, in order; except that when the existing count already
reaches `maxCount` the final list is the existing list truncated to
`maxCount` and nothing is added. -/
theorem c5_existing_label_preservation
    (existingRaw rawCandidates denylist : List String) (mode : DenylistMode)
    (cache : List String) (threshold : ℚ) (maxCount : Nat) :
    (maxCount ≤ (processCore existingRaw rawCandidates denylist mode cache threshold maxCount).existing.length →
      (processCore existingRaw rawCandidates denylist mode cache threshold maxCount).combined =
        (processCore existingRaw rawCandidates denylist mode cache threshold maxCount).existing.take maxCount ∧
      (processCore existingRaw rawCandidates denylist mode cache threshold maxCount).added = []) ∧
    ((processCore existingRaw rawCandidates denylist mode cache threshold maxCount).existing.length < maxCount →
      (processCore existingRaw rawCandidates denylist mode cache threshold maxCount).combined.take
        (processCore existingRaw rawCandidates denylist mode cache threshold maxCount).existing.length =
        (processCore existingRaw rawCandidates denylist mode cache threshold maxCount).existing ∧
      ∀ x ∈ (processCore existingRaw rawCandidates denylist mode cache threshold maxCount).existing,
        x ∈ (processCore existingRaw rawCandidates denylist mode cache threshold maxCount).combined) := by
  simp only [processCore]
  set existing := uniqueStable (existingRaw.filterMap slugifyHashtag) with hE
  set mN := (filterNewWithDenylist
    (uniqueStable (rawCandidates.filterMap slugifyHashtag)) denylist mode).kept.map
    (fun c => (mapToCache c cache threshold).mapped) with hM
  have hn : existing.Nodup := nodup_uniqueStable
  constructor
  · intro hge
    have hc := @combined_of_ge existing mN maxCount hn hge
    refine ⟨hc, ?_⟩
    rw [hc]
    apply filter_not_contains_eq_nil
    intro x hx
    exact (List.take_sublist _ _).mem hx
  · intro hlt
    have hsplit := uniqueStable_append_of_nodup (r := mN) hn
    constructor
    · rw [hsplit, List.take_take, min_eq_left (Nat.le_of_lt hlt), List.take_left]
    · intro x hx
      rw [hsplit]
      rw [List.take_append_eq_append_take]
      apply List.mem_append_left
      rw [List.take_of_length_le (by omega)]
      exact hx

/-- Witness for C5 at concrete inputs, one for each branch. -/
theorem c5_existing_label_preservation_witness :
    ((processCore (["foo", "bar"]) [] [] DenylistMode.exact [] 0 1).combined =
        (processCore (["foo", "bar"]) [] [] DenylistMode.exact [] 0 1).existing.take 1 ∧
      (processCore (["foo", "bar"]) [] [] DenylistMode.exact [] 0 1).added = []) ∧
    ((processCore (["foo", "bar"]) [] [] DenylistMode.exact [] 0 5).combined.take
        (processCore (["foo", "bar"]) [] [] DenylistMode.exact [] 0 5).existing.length =
        (processCore (["foo", "bar"]) [] [] DenylistMode.exact [] 0 5).existing ∧
      ∀ x ∈ (processCore (["foo", "bar"]) [] [] DenylistMode.exact [] 0 5).existing,
        x ∈ (processCore (["foo", "bar"]) [] [] DenylistMode.exact [] 0 5).combined) :=
  ⟨(c5_existing_label_preservation (["foo", "bar"]) [] [] DenylistMode.exact [] 0 1).1
      (by decide),
   (c5_existing_label_preservation (["foo", "bar"]) [] [] DenylistMode.exact [] 0 5).2
      (by decide)⟩

/-! ## Change detection (claim C8) -/

/-- C8: `processFile` reports `changed = true` exactly when the computed
`added` list is non-empty and the reserialized document (updated metadata
plus rewritten body) differs byte-for-byte from the original raw text. -/
theorem c8_changed_iff (serialize : List (String × MetaVal) → String → String)
    (fallbackTitle raw : String) (fm : List (String × MetaVal))
    (content : String) (denylist : List String) (mode : DenylistMode)
    (cache : List String) (threshold : ℚ)
    (maxCount keywordLimit candidateLimit : Nat) :
    (processFileModel serialize fallbackTitle raw fm content denylist mode
        cache threshold maxCount keywordLimit candidateLimit).changed = true ↔
      ((processCore ((getHashtagsRaw fm).getD [])
          (extractRawCandidates ((getTitleFromFrontmatter fm).getD fallbackTitle)
            content (getTags fm) keywordLimit candidateLimit)
          denylist mode cache threshold maxCount).added ≠ [] ∧
        serialize
          (writeBackMeta fm (processCore ((getHashtagsRaw fm).getD [])
            (extractRawCandidates ((getTitleFromFrontmatter fm).getD fallbackTitle)
              content (getTags fm) keywordLimit candidateLimit)
            denylist mode cache threshold maxCount).combined)
          (writeBackBody content) ≠ raw) := by
  simp only [processFileModel, finishProcess]
  split
  · rename_i h
    simp [List.isEmpty_iff.mp h]
  · rename_i h
    split
    · rename_i h2
      simp_all [List.isEmpty_iff]
    · rename_i h2
      simp_all [List.isEmpty_iff]

/-! ## Threshold clamping in `loadConfig` (claim C10) -/

/-- C10: a finite numeric `cacheSimilarityThreshold` never causes a
configuration error; it is silently clamped into `[0,1]` (given that the
`min`/`max` validation, which is independent of the threshold, passes). -/
theorem c10_threshold_clamped (r : TaggerConfigFile) (v : ℚ)
    (hv : r.cacheSimilarityThreshold = some v)
    (hmin : 1 ≤ r.min.getD defaultsConfig.min)
    (hminmax : r.min.getD defaultsConfig.min ≤ r.max.getD defaultsConfig.max) :
    ∃ rc, loadConfig (some r) = Except.ok rc ∧
      rc.cacheSimilarityThreshold = clampNumber v 0 1 ∧
      (v < 0 → rc.cacheSimilarityThreshold = 0) ∧
      (1 < v → rc.cacheSimilarityThreshold = 1) ∧
      (0 ≤ v → v ≤ 1 → rc.cacheSimilarityThreshold = v) := by
  have h1 : ¬ (r.min.getD defaultsConfig.min < 1) := not_lt.mpr hmin
  have h2 : ¬ (r.max.getD defaultsConfig.max <
      r.min.getD defaultsConfig.min) := not_lt.mpr hminmax
  simp only [loadConfig, hv]
  rw [if_neg h1, if_neg h2]
  refine ⟨_, rfl, rfl, ?_, ?_, ?_⟩
  · intro h0
    show clampNumber v 0 1 = 0
    unfold clampNumber
    rw [min_eq_right (by linarith), max_eq_left (by linarith)]
  · intro h1'
    show clampNumber v 0 1 = 1
    unfold clampNumber
    rw [min_eq_left (by linarith)]
    norm_num
  · intro hl hr
    show clampNumber v 0 1 = v
    unfold clampNumber
    rw [min_eq_right hr, max_eq_right hl]

/-- Witness for C10: threshold `5` loads fine and is clamped to `1`. -/
theorem c10_threshold_clamped_witness :
    ∃ rc, loadConfig (some (TaggerConfigFile.mk none none none none none
        none none (some 5) none none none none none)) = Except.ok rc ∧
      rc.cacheSimilarityThreshold = clampNumber 5 0 1 ∧
      ((5 : ℚ) < 0 → rc.cacheSimilarityThreshold = 0) ∧
      ((1 : ℚ) < 5 → rc.cacheSimilarityThreshold = 1) ∧
      ((0 : ℚ) ≤ 5 → (5 : ℚ) ≤ 1 → rc.cacheSimilarityThreshold = 5) :=
  c10_threshold_clamped _ 5 rfl
    (by simp [defaultsConfig]) (by simp [defaultsConfig]; norm_num)

/-! ## Vocabulary cache load failure (claim C3) -/

/-- C3 counterexample: a malformed (unparsable) cache file does not fall
back to an empty vocabulary — `loadOrCreateCache` propagates the wrapped
error, so cache loading is fatal to the run. -/
theorem c3_counterexample :
    loadOrCreateCache ("cache.json") (JsonReadResult.malformed ("Unexpected token u")) [] =
      Except.error ("Failed to read JSON: cache.json: Unexpected token u") := rfl

/-- C3 amended: only a missing cache file (`ENOENT`) or a cache that
parses but fails the version/shape check are tolerated, falling back to a
rebuild from the documents' existing hashtags; an unparsable cache (or any
non-`ENOENT` read error) is an error that aborts processing. -/
theorem c3_amended_cache_load (path msg : String) (rebuilt : List String)
    (j : CacheFileJson)
    (hj : ¬(j.version = some 1 ∧ j.hashtags.isSome = true)) :
    loadOrCreateCache path JsonReadResult.missing rebuilt = Except.ok rebuilt ∧
    loadOrCreateCache path (JsonReadResult.value j) rebuilt = Except.ok rebuilt ∧
    loadOrCreateCache path (JsonReadResult.malformed msg) rebuilt =
      Except.error (("Failed to read JSON: ") ++ path ++ (": ") ++ msg) := by
  refine ⟨rfl, ?_, rfl⟩
  simp only [loadOrCreateCache, readJsonFile]
  rw [if_neg hj]

/-- Witness for C3 (amended) at a concrete malformed-shape cache value. -/
theorem c3_amended_cache_load_witness :
    loadOrCreateCache ("cache.json") JsonReadResult.missing [("astro")] =
        Except.ok [("astro")] ∧
    loadOrCreateCache ("cache.json")
        (JsonReadResult.value (CacheFileJson.mk none none)) [("astro")] =
        Except.ok [("astro")] ∧
    loadOrCreateCache ("cache.json") (JsonReadResult.malformed ("bad")) [("astro")] =
      Except.error (("Failed to read JSON: ") ++ ("cache.json") ++ (": ") ++ ("bad")) :=
  c3_amended_cache_load ("cache.json") ("bad") [("astro")]
    (CacheFileJson.mk none none) (by simp)

/-! ## Glob denylist normalization (claim C1) -/

/-- C1: evaluation of the code at the spec's own scenario.  `loadConfig`
slug-normalizes denylist entries in `glob` mode too, so the configured
pattern `astro-*` is loaded as `astro`; consequently the candidate
`astro-components` is NOT denied and the candidate `astro` IS denied —
the exact opposite of the specified behaviour.  (This contradicts the
source's own `denylistMode` documentation, which promises support for
patterns such as `astro-*`, and makes the wildcard handling of
`globToRegExp` unreachable.) -/
theorem c1_glob_denylist_eval :
    (∃ rc, loadConfig (some (TaggerConfigFile.mk none none none none
        (some [("astro-*")]) (some ("glob")) none none none none none none none)) =
        Except.ok rc ∧
      rc.denylist = [("astro")] ∧ rc.denylistMode = DenylistMode.glob) ∧
    filterNewWithDenylist [("astro-components"), ("astro")] [("astro")]
        DenylistMode.glob =
      ⟨[("astro-components")], [("astro")]⟩ := by
  constructor
  · exact ⟨_, rfl, by decide, by decide⟩
  · decide

/-! ## Frame property of the write-back (claim C4) -/

theorem lookup_map_replace_other {k' k : String} (hk : k' ≠ k) (v : MetaVal) :
    ∀ fm : List (String × MetaVal),
      List.lookup k' (fm.map (fun p => if p.1 = k then (k, v) else p)) =
        List.lookup k' fm := by
  intro fm
  induction fm with
  | nil => rfl
  | cons p t ih =>
    by_cases hp : p.1 = k
    · rw [List.map_cons, if_pos hp]
      rw [List.lookup_cons, List.lookup_cons, ih,
        beq_false_of_ne hk, beq_false_of_ne (hp ▸ hk)]
    · rw [List.map_cons, if_neg hp]
      rw [List.lookup_cons, List.lookup_cons, ih]

theorem lookup_append_single_other {k' k : String} (hk : k' ≠ k) (v : MetaVal)
    (fm : List (String × MetaVal)) :
    List.lookup k' (fm ++ [(k, v)]) = List.lookup k' fm := by
  induction fm with
  | nil => simp [List.lookup_cons, beq_false_of_ne hk]
  | cons p t ih =>
    rw [List.cons_append, List.lookup_cons, List.lookup_cons, ih]

theorem lookup_setKey_other {k' k : String} (hk : k' ≠ k)
    (fm : List (String × MetaVal)) (v : MetaVal) :
    List.lookup k' (setKey fm k v) = List.lookup k' fm := by
  unfold setKey
  split
  · exact lookup_map_replace_other hk v fm
  · exact lookup_append_single_other hk v fm

theorem lookup_map_replace_same (k : String) (v : MetaVal) :
    ∀ fm : List (String × MetaVal), fm.any (fun p => p.1 = k) = true →
      List.lookup k (fm.map (fun p => if p.1 = k then (k, v) else p)) = some v := by
  intro fm
  induction fm with
  | nil => intro h; simp at h
  | cons p t ih =>
    intro hany
    by_cases hp : p.1 = k
    · rw [List.map_cons, if_pos hp]
      simp [List.lookup_cons]
    · have ht : t.any (fun p => p.1 = k) = true := by
        simp only [List.any_cons, Bool.or_eq_true_iff] at hany
        rcases hany with h | h
        · exact absurd (by simpa using h) hp
        · exact h
      rw [List.map_cons, if_neg hp, List.lookup_cons,
        beq_false_of_ne (fun h => hp h.symm)]
      exact ih ht

theorem lookup_none_of_not_any (k : String) :
    ∀ fm : List (String × MetaVal), fm.any (fun p => p.1 = k) = false →
      List.lookup k fm = none := by
  intro fm
  induction fm with
  | nil => intro _; rfl
  | cons p t ih =>
    intro hany
    simp only [List.any_cons, Bool.or_eq_false_iff] at hany
    have hp : ¬(p.1 = k) := by simpa using hany.1
    rw [List.lookup_cons, beq_false_of_ne (fun h => hp h.symm)]
    exact ih hany.2

theorem lookup_setKey_same (fm : List (String × MetaVal)) (k : String)
    (v : MetaVal) : List.lookup k (setKey fm k v) = some v := by
  unfold setKey
  split
  · rename_i hany
    exact lookup_map_replace_same k v fm hany
  · rename_i hany
    have h0 : fm.any (fun p => p.1 = k) = false := by
      cases h : fm.any (fun p => p.1 = k)
      · rfl
      · exact absurd h hany
    rw [List.lookup_append, lookup_none_of_not_any k fm h0]
    simp [List.lookup_cons]

/-- C4 counterexample: the body is not byte-for-byte preserved by the
write-back — a leading newline is stripped and a trailing newline
appended. -/
theorem c4_counterexample :
    writeBackBody ("\nhello") = ("hello\n") ∧
    writeBackBody ("\nhello") ≠ ("\nhello") := by
  constructor
  · decide
  · decide

/-- C4 amended: the written metadata map updates exactly the `hashtags`
key (every other key maps to its original value, and `hashtags` maps to
the merged list); the written body, however, is the parsed body with
leading newlines removed and one newline appended, so the body is not
byte-for-byte preserved in general. -/
theorem c4_amended_frame (fm : List (String × MetaVal)) (combined : List String)
    (content : String) (k : String) (hk : k ≠ ("hashtags")) :
    List.lookup k (writeBackMeta fm combined) = List.lookup k fm ∧
    List.lookup ("hashtags") (writeBackMeta fm combined) =
      some (MetaVal.strList combined) ∧
    writeBackBody content = stripLeadingNewlines content ++ ("\n") :=
  ⟨lookup_setKey_other hk fm _, lookup_setKey_same fm _ _, rfl⟩

/-- Witness for C4 (amended) at a concrete metadata map. -/
theorem c4_amended_frame_witness :
    List.lookup ("title") (writeBackMeta
        [(("title"), MetaVal.str ("My Post")), (("hashtags"), MetaVal.strList [("old")])]
        [("old"), ("new")]) =
      List.lookup ("title")
        [(("title"), MetaVal.str ("My Post")), (("hashtags"), MetaVal.strList [("old")])] ∧
    List.lookup ("hashtags") (writeBackMeta
        [(("title"), MetaVal.str ("My Post")), (("hashtags"), MetaVal.strList [("old")])]
        [("old"), ("new")]) =
      some (MetaVal.strList [("old"), ("new")]) ∧
    writeBackBody ("\nbody") = stripLeadingNewlines ("\nbody") ++ ("\n") :=
  c4_amended_frame
    [(("title"), MetaVal.str ("My Post")), (("hashtags"), MetaVal.strList [("old")])]
    [("old"), ("new")] ("\nbody") ("title") (by decide)

/-! ## Slug normalizer: grammar of the output (towards claim C6) -/

theorem isSlugChar_cases {c : Char} (h : isSlugChar c = true) :
    (97 ≤ c.toNat ∧ c.toNat ≤ 122) ∨ (48 ≤ c.toNat ∧ c.toNat ≤ 57) ∨ c = '-' := by
  simp only [isSlugChar, isLowerAZ, isDigit09, isHyph, Bool.or_eq_true,
    Bool.and_eq_true, decide_eq_true_eq] at h
  tauto

theorem not_ws_of_mid {c : Char} (h1 : 48 ≤ c.toNat) (h2 : c.toNat ≤ 122) :
    jsWs c = false := by
  cases hw : jsWs c
  · rfl
  · exfalso
    simp only [jsWs, Bool.or_eq_true, Bool.and_eq_true, decide_eq_true_eq] at hw
    omega

theorem slugChar_not_ws {c : Char} (h : isSlugChar c = true) : jsWs c = false := by
  rcases isSlugChar_cases h with h' | h' | rfl
  · exact not_ws_of_mid (by omega) h'.2
  · exact not_ws_of_mid h'.1 (by omega)
  · decide

theorem slugChar_toNat_ne {c : Char} (h : isSlugChar c = true) :
    c.toNat ≠ 35 ∧ c.toNat ≠ 39 ∧ c.toNat ≠ 34 ∧ c.toNat ≠ 38 := by
  rcases isSlugChar_cases h with h' | h' | rfl
  · omega
  · omega
  · decide

theorem slugChar_toLower {c : Char} (h : isSlugChar c = true) :
    c.toLower = c := by
  rcases isSlugChar_cases h with h' | h' | rfl
  · simp only [Char.toLower]
    rw [if_neg (by omega)]
  · simp only [Char.toLower]
    rw [if_neg (by omega)]
  · decide

theorem allowed_of_slugChar {c : Char} (h : isSlugChar c = true) :
    (isLowerAZ c || isDigit09 c || jsWs c || isHyph c) = true := by
  simp only [isSlugChar, Bool.or_eq_true] at h ⊢
  tauto

/-! Membership preservation through the pipeline stages. -/

theorem mem_keepAllowed {l : List Char} {c : Char}
    (hc : c ∈ keepAllowedElseSpace l) :
    (isLowerAZ c || isDigit09 c || jsWs c || isHyph c) = true := by
  unfold keepAllowedElseSpace at hc
  rcases List.mem_map.mp hc with ⟨a, _, rfl⟩
  split
  · assumption
  · decide

theorem mem_collapseWsAux {l : List Char} :
    ∀ {b : Bool} {c : Char}, c ∈ collapseWsAux b l → c ∈ l ∨ c = ' ' := by
  induction l with
  | nil => intro b c hc; simp [collapseWsAux] at hc
  | cons a t ih =>
    intro b c hc
    simp only [collapseWsAux] at hc
    split at hc
    · split at hc
      · rcases ih hc with h | h
        · exact Or.inl (List.mem_cons_of_mem _ h)
        · exact Or.inr h
      · rcases List.mem_cons.mp hc with rfl | hc
        · exact Or.inr rfl
        · rcases ih hc with h | h
          · exact Or.inl (List.mem_cons_of_mem _ h)
          · exact Or.inr h
    · rcases List.mem_cons.mp hc with rfl | hc
      · exact Or.inl (List.mem_cons_self _ _)
      · rcases ih hc with h | h
        · exact Or.inl (List.mem_cons_of_mem _ h)
        · exact Or.inr h

theorem mem_jsTrim {l : List Char} {c : Char} (hc : c ∈ jsTrim l) : c ∈ l := by
  unfold jsTrim at hc
  rw [List.mem_reverse] at hc
  have h1 := (List.dropWhile_sublist jsWs).mem hc
  rw [List.mem_reverse] at h1
  exact (List.dropWhile_sublist jsWs).mem h1

theorem mem_wsToHyphen {l : List Char} {c : Char} (hc : c ∈ wsToHyphen l)
    (hl : ∀ x ∈ l, (isLowerAZ x || isDigit09 x || jsWs x || isHyph x) = true) :
    isSlugChar c = true := by
  unfold wsToHyphen at hc
  rcases List.mem_map.mp hc with ⟨a, ha, rfl⟩
  split
  · decide
  · rename_i hws
    have := hl a ha
    simp only [Bool.or_eq_true] at this
    simp only [isSlugChar, Bool.or_eq_true]
    rcases this with ((h | h) | h) | h
    · tauto
    · tauto
    · exact absurd h (by simpa using hws)
    · tauto

theorem mem_collapseHyphAux {l : List Char} :
    ∀ {b : Bool} {c : Char}, c ∈ collapseHyphAux b l → c ∈ l ∨ c = '-' := by
  induction l with
  | nil => intro b c hc; simp [collapseHyphAux] at hc
  | cons a t ih =>
    intro b c hc
    simp only [collapseHyphAux] at hc
    split at hc
    · split at hc
      · rcases ih hc with h | h
        · exact Or.inl (List.mem_cons_of_mem _ h)
        · exact Or.inr h
      · rcases List.mem_cons.mp hc with rfl | hc
        · exact Or.inr rfl
        · rcases ih hc with h | h
          · exact Or.inl (List.mem_cons_of_mem _ h)
          · exact Or.inr h
    · rcases List.mem_cons.mp hc with rfl | hc
      · exact Or.inl (List.mem_cons_self _ _)
      · rcases ih hc with h | h
        · exact Or.inl (List.mem_cons_of_mem _ h)
        · exact Or.inr h

theorem mem_dropLeadHyphen {l : List Char} {c : Char}
    (hc : c ∈ dropLeadHyphen l) : c ∈ l := by
  cases l with
  | nil => simp [dropLeadHyphen] at hc
  | cons a t =>
    simp only [dropLeadHyphen] at hc
    split at hc
    · exact List.mem_cons_of_mem _ hc
    · exact hc

theorem mem_stripEdgeHyphens {l : List Char} {c : Char}
    (hc : c ∈ stripEdgeHyphens l) : c ∈ l := by
  unfold stripEdgeHyphens dropTrailHyphen at hc
  rw [List.mem_reverse] at hc
  have h1 := mem_dropLeadHyphen hc
  rw [List.mem_reverse] at h1
  exact mem_dropLeadHyphen h1

/-- Every character of `slugCore l` is a slug character. -/
theorem slugCore_chars {l : List Char} :
    ∀ c ∈ slugCore l, isSlugChar c = true := by
  intro c hc
  unfold slugCore at hc
  have h1 := mem_stripEdgeHyphens hc
  rcases mem_collapseHyphAux h1 with h2 | rfl
  · apply mem_wsToHyphen h2
    intro x hx
    have h3 := mem_jsTrim hx
    rcases mem_collapseWsAux h3 with h4 | rfl
    · exact mem_keepAllowed h4
    · decide
  · decide

/-! Hyphen-run structure of the `slugCore` output. -/

theorem noDouble_cons_of {a : Char} {X : List Char}
    (hX : noDoubleHyphenB X = true)
    (hhead : noEdgeHyphenB X = true ∨ isHyph a = false) :
    noDoubleHyphenB (a :: X) = true := by
  cases X with
  | nil => rfl
  | cons b t =>
    show ((!(isHyph a && isHyph b)) && noDoubleHyphenB (b :: t)) = true
    rw [hX, Bool.and_true]
    rcases hhead with h | h
    · have hb : isHyph b = false := by simpa [noEdgeHyphenB] using h
      simp [hb]
    · simp [h]

theorem noDouble_tail {a : Char} {t : List Char}
    (h : noDoubleHyphenB (a :: t) = true) : noDoubleHyphenB t = true := by
  cases t with
  | nil => rfl
  | cons b t2 =>
    have : ((!(isHyph a && isHyph b)) && noDoubleHyphenB (b :: t2)) = true := h
    exact (Bool.and_eq_true_iff.mp this).2

theorem noDouble_head_pair {a b : Char} {t : List Char}
    (h : noDoubleHyphenB (a :: b :: t) = true) :
    (isHyph a && isHyph b) = false := by
  have h1 : ((!(isHyph a && isHyph b)) && noDoubleHyphenB (b :: t)) = true := h
  have h2 := (Bool.and_eq_true_iff.mp h1).1
  rwa [Bool.not_eq_true'] at h2

theorem noDouble_iff_chain {l : List Char} :
    noDoubleHyphenB l = true ↔
      List.Chain' (fun a b => ¬(isHyph a = true ∧ isHyph b = true)) l := by
  induction l with
  | nil => simp [noDoubleHyphenB]
  | cons a t ih =>
    cases t with
    | nil => simp [noDoubleHyphenB]
    | cons b t2 =>
      rw [List.chain'_cons, ← ih]
      show ((!(isHyph a && isHyph b)) && noDoubleHyphenB (b :: t2)) = true ↔ _
      rw [Bool.and_eq_true_iff, Bool.not_eq_true', Bool.and_eq_false_iff]
      constructor
      · rintro ⟨h1, h2⟩
        refine ⟨fun ⟨ha, hb⟩ => ?_, h2⟩
        rcases h1 with h | h
        · exact absurd ha (by simp [h])
        · exact absurd hb (by simp [h])
      · rintro ⟨h1, h2⟩
        refine ⟨?_, h2⟩
        by_cases ha : isHyph a = true
        · by_cases hb : isHyph b = true
          · exact absurd ⟨ha, hb⟩ h1
          · exact Or.inr (by simpa using hb)
        · exact Or.inl (by simpa using ha)

theorem noDouble_reverse {l : List Char} :
    noDoubleHyphenB l.reverse = noDoubleHyphenB l := by
  rw [Bool.eq_iff_iff, noDouble_iff_chain, noDouble_iff_chain,
    List.chain'_reverse]
  constructor
  · intro h
    exact h.imp fun hab => by tauto
  · intro h
    exact h.imp fun hab => by tauto

theorem collapseHyphAux_ok (l : List Char) :
    (∀ b, noDoubleHyphenB (collapseHyphAux b l) = true) ∧
      noEdgeHyphenB (collapseHyphAux true l) = true := by
  induction l with
  | nil => exact ⟨fun b => rfl, rfl⟩
  | cons a t ih =>
    by_cases hh : isHyph a = true
    · constructor
      · intro b
        cases b with
        | true =>
          simp only [collapseHyphAux, hh, if_true]
          exact ih.1 true
        | false =>
          simp only [collapseHyphAux, hh, if_true]
          exact noDouble_cons_of (ih.1 true) (Or.inl ih.2)
      · simp only [collapseHyphAux, hh, if_true]
        exact ih.2
    · have hh' : isHyph a = false := by simpa using hh
      constructor
      · intro b
        simp only [collapseHyphAux, hh', Bool.false_eq_true, if_false]
        exact noDouble_cons_of (ih.1 false) (Or.inr hh')
      · simp only [collapseHyphAux, hh', Bool.false_eq_true, if_false,
          noEdgeHyphenB, hh']
        rfl

theorem dropLead_noEdge {l : List Char} (hnd : noDoubleHyphenB l = true) :
    noEdgeHyphenB (dropLeadHyphen l) = true := by
  cases l with
  | nil => rfl
  | cons a t =>
    by_cases hh : isHyph a = true
    · simp only [dropLeadHyphen, hh, if_true]
      cases t with
      | nil => rfl
      | cons b t2 =>
        have := noDouble_head_pair hnd
        rw [hh, Bool.true_and] at this
        simp [noEdgeHyphenB, this]
    · have hh' : isHyph a = false := by simpa using hh
      simp [dropLeadHyphen, hh', noEdgeHyphenB]

theorem dropLeadHyphen_eq_self {l : List Char}
    (he : noEdgeHyphenB l = true) : dropLeadHyphen l = l := by
  cases l with
  | nil => rfl
  | cons a t =>
    have : isHyph a = false := by simpa [noEdgeHyphenB] using he
    simp [dropLeadHyphen, this]

theorem dropTrailHyphen_cases (l : List Char) :
    dropTrailHyphen l = l ∨ dropTrailHyphen l = l.dropLast := by
  unfold dropTrailHyphen
  cases hr : l.reverse with
  | nil =>
    have : l = [] := by simpa using congrArg List.reverse hr
    subst this
    exact Or.inl rfl
  | cons c t =>
    by_cases hh : isHyph c = true
    · right
      simp only [dropLeadHyphen, hh, if_true]
      have hl : l = t.reverse ++ [c] := by
        have := congrArg List.reverse hr
        simpa using this
      rw [hl]
      simp
    · left
      have hh' : isHyph c = false := by simpa using hh
      simp only [dropLeadHyphen, hh', Bool.false_eq_true, if_false]
      have h2 : l = t.reverse ++ [c] := by simpa using congrArg List.reverse hr
      rw [h2]
      simp

theorem noEdge_dropLast {l : List Char} (he : noEdgeHyphenB l = true) :
    noEdgeHyphenB l.dropLast = true := by
  cases l with
  | nil => rfl
  | cons a t =>
    cases t with
    | nil => rfl
    | cons b t2 =>
      simpa [noEdgeHyphenB] using he

theorem noDouble_dropLast {l : List Char} (h : noDoubleHyphenB l = true) :
    noDoubleHyphenB l.dropLast = true := by
  have h1 : noDoubleHyphenB l.reverse = true := by rw [noDouble_reverse]; exact h
  have h2 : noDoubleHyphenB l.reverse.tail = true := by
    cases hr : l.reverse with
    | nil => rfl
    | cons a t => rw [hr] at h1; exact noDouble_tail h1
  have h3 : l.dropLast = l.reverse.tail.reverse := by
    rw [List.tail_reverse, List.reverse_reverse]
  rw [h3, noDouble_reverse]
  exact h2

/-- Edges and hyphen-run structure of the final `slugCore` output. -/
theorem stripEdge_final {h : List Char} (hnd : noDoubleHyphenB h = true) :
    noEdgeHyphenB (stripEdgeHyphens h) = true ∧
    noEdgeHyphenB (stripEdgeHyphens h).reverse = true ∧
    noDoubleHyphenB (stripEdgeHyphens h) = true := by
  unfold stripEdgeHyphens
  have hm : noDoubleHyphenB (dropLeadHyphen h) = true := by
    cases h with
    | nil => rfl
    | cons a t =>
      by_cases hh : isHyph a = true
      · simp only [dropLeadHyphen, hh, if_true]
        exact noDouble_tail hnd
      · have hh' : isHyph a = false := by simpa using hh
        simpa [dropLeadHyphen, hh'] using hnd
  have hme : noEdgeHyphenB (dropLeadHyphen h) = true := dropLead_noEdge hnd
  refine ⟨?_, ?_, ?_⟩
  · rcases dropTrailHyphen_cases (dropLeadHyphen h) with hc | hc
    · rw [hc]; exact hme
    · rw [hc]; exact noEdge_dropLast hme
  · show noEdgeHyphenB (dropLeadHyphen (dropLeadHyphen h).reverse).reverse.reverse = true
    rw [List.reverse_reverse]
    apply dropLead_noEdge
    rw [noDouble_reverse]
    exact hm
  · rcases dropTrailHyphen_cases (dropLeadHyphen h) with hc | hc
    · rw [hc]; exact hm
    · rw [hc]; exact noDouble_dropLast hm

/-- Grammar of the `slugCore` output: slug characters, no edge hyphens, no
repeated hyphens. -/
theorem slugCore_grammar (l : List Char) :
    (∀ c ∈ slugCore l, isSlugChar c = true) ∧
    noEdgeHyphenB (slugCore l) = true ∧
    noEdgeHyphenB (slugCore l).reverse = true ∧
    noDoubleHyphenB (slugCore l) = true := by
  refine ⟨slugCore_chars, ?_⟩
  unfold slugCore
  exact stripEdge_final ((collapseHyphAux_ok _).1 false)

/-! Slug normalizer: idempotence on already-normalized output. -/

theorem dropWhile_eq_self_of_none {p : Char → Bool} {l : List Char}
    (h : ∀ c ∈ l, p c = false) : l.dropWhile p = l := by
  cases l with
  | nil => rfl
  | cons c cs =>
    rw [List.dropWhile_cons, h c (List.mem_cons_self _ _)]
    simp

theorem jsTrim_eq_self {l : List Char} (h : ∀ c ∈ l, jsWs c = false) :
    jsTrim l = l := by
  unfold jsTrim
  rw [dropWhile_eq_self_of_none h,
    dropWhile_eq_self_of_none (fun c hc => h c (List.mem_reverse.mp hc)),
    List.reverse_reverse]

theorem map_eq_self_of_fixed {f : Char → Char} {l : List Char}
    (h : ∀ c ∈ l, f c = c) : l.map f = l := by
  induction l with
  | nil => rfl
  | cons c cs ih =>
    rw [List.map_cons, h c (List.mem_cons_self _ _),
      ih fun x hx => h x (List.mem_cons_of_mem _ hx)]

theorem filter_eq_self_of_all {p : Char → Bool} {l : List Char}
    (h : ∀ c ∈ l, p c = true) : l.filter p = l := by
  induction l with
  | nil => rfl
  | cons c cs ih =>
    rw [List.filter_cons, h c (List.mem_cons_self _ _)]
    simp only [if_true]
    rw [ih fun x hx => h x (List.mem_cons_of_mem _ hx)]

theorem expandAmp_eq_self {l : List Char} (h : ∀ c ∈ l, c.toNat ≠ 38) :
    expandAmp l = l := by
  induction l with
  | nil => rfl
  | cons c cs ih =>
    unfold expandAmp at ih ⊢
    rw [List.flatMap_cons]
    rw [if_neg (by simpa using h c (List.mem_cons_self _ _))]
    rw [ih fun x hx => h x (List.mem_cons_of_mem _ hx)]
    rfl

theorem collapseWsAux_eq_self {l : List Char} (h : ∀ c ∈ l, jsWs c = false) :
    ∀ b, collapseWsAux b l = l := by
  induction l with
  | nil => intro b; rfl
  | cons c cs ih =>
    intro b
    simp only [collapseWsAux, h c (List.mem_cons_self _ _),
      Bool.false_eq_true, if_false]
    rw [ih (fun x hx => h x (List.mem_cons_of_mem _ hx)) false]

theorem collapseHyphAux_eq_self {l : List Char} :
    ∀ (b : Bool), noDoubleHyphenB l = true →
      (b = true → noEdgeHyphenB l = true) → collapseHyphAux b l = l := by
  induction l with
  | nil => intro b _ _; rfl
  | cons c cs ih =>
    intro b hnd he
    by_cases hh : isHyph c = true
    · have hb : b = false := by
        cases b with
        | false => rfl
        | true =>
          have := he rfl
          simp [noEdgeHyphenB, hh] at this
      subst hb
      simp only [collapseHyphAux, hh, if_true]
      have hc : c = '-' := by simpa [isHyph] using hh
      have htail : collapseHyphAux true cs = cs := by
        apply ih true (noDouble_tail hnd)
        intro _
        cases cs with
        | nil => rfl
        | cons d t =>
          have hp := noDouble_head_pair hnd
          rw [hh, Bool.true_and] at hp
          simp [noEdgeHyphenB, hp]
      rw [htail, hc]
      simp
    · have hh' : isHyph c = false := by simpa using hh
      simp only [collapseHyphAux, hh', Bool.false_eq_true, if_false]
      rw [ih false (noDouble_tail hnd) (fun hcon => absurd hcon Bool.false_ne_true)]

theorem stripEdgeHyphens_eq_self {l : List Char}
    (he1 : noEdgeHyphenB l = true) (he2 : noEdgeHyphenB l.reverse = true) :
    stripEdgeHyphens l = l := by
  unfold stripEdgeHyphens dropTrailHyphen
  rw [dropLeadHyphen_eq_self he1, dropLeadHyphen_eq_self he2,
    List.reverse_reverse]

/-- `slugCore` fixes every string satisfying the slug grammar. -/
theorem slugCore_fixed {s : List Char}
    (hchars : ∀ c ∈ s, isSlugChar c = true)
    (hnd : noDoubleHyphenB s = true) (he1 : noEdgeHyphenB s = true)
    (he2 : noEdgeHyphenB s.reverse = true) : slugCore s = s := by
  have hws : ∀ c ∈ s, jsWs c = false := fun c hc => slugChar_not_ws (hchars c hc)
  have h35 : stripLeadingHashes s = s :=
    dropWhile_eq_self_of_none fun c hc =>
      decide_eq_false (slugChar_toNat_ne (hchars c hc)).1
  have hq : stripQuotes s = s := by
    apply filter_eq_self_of_all
    intro c hc
    have h := slugChar_toNat_ne (hchars c hc)
    simp [h.2.1, h.2.2.1]
  have hamp : expandAmp s = s :=
    expandAmp_eq_self fun c hc => (slugChar_toNat_ne (hchars c hc)).2.2.2
  have hka : keepAllowedElseSpace s = s := by
    apply map_eq_self_of_fixed
    intro c hc
    simp [allowed_of_slugChar (hchars c hc)]
  have hcw : collapseWs s = s := collapseWsAux_eq_self hws false
  have hwh : wsToHyphen s = s := by
    apply map_eq_self_of_fixed
    intro c hc
    simp [hws c hc]
  have hch : collapseHyph s = s :=
    collapseHyphAux_eq_self false hnd fun hcon => absurd hcon Bool.false_ne_true
  have hse : stripEdgeHyphens s = s := stripEdgeHyphens_eq_self he1 he2
  unfold slugCore
  rw [map_eq_self_of_fixed (fun c hc => slugChar_toLower (hchars c hc)),
    jsTrim_eq_self hws, h35, hq, hamp, hka, hcw, jsTrim_eq_self hws, hwh,
    hch, hse]

set_option maxHeartbeats 1000000 in
/-- Soundness of `slugifyHashtag`: every accepted output satisfies the
slug grammar, and normalization fixes it. -/
theorem slugify_sound {raw s : String} (h : slugifyHashtag raw = some s) :
    isSlugB s = true ∧ slugifyHashtag s = some s := by
  simp only [slugifyHashtag] at h
  split_ifs at h with h1 h2 h3
  injection h with h4
  subst h4
  have hg := slugCore_grammar raw.toList
  have hsl : (String.mk (slugCore raw.toList)).toList = slugCore raw.toList := rfl
  have hlen : 2 ≤ (slugCore raw.toList).length := by omega
  constructor
  · simp only [isSlugB, Bool.and_eq_true, List.all_eq_true, decide_eq_true_eq, hsl]
    exact ⟨⟨⟨⟨⟨hg.1, hg.2.1⟩, hg.2.2.1⟩, hg.2.2.2⟩, hlen⟩, h3⟩
  · simp only [slugifyHashtag, hsl]
    rw [slugCore_fixed hg.1 hg.2.2.2 hg.2.1 hg.2.2.1]
    rw [if_neg (by intro hnil; rw [hnil] at hlen; simp at hlen)]
    rw [if_neg (by omega)]
    rw [if_neg h3]

/-- C6: slug normalization is total and deterministic by construction (it
is a function); every accepted output satisfies the slug grammar
(lowercase `[a-z0-9-]`, no leading/trailing/repeated hyphen, length at
least 2, not a stopword), and re-normalizing an accepted output returns it
unchanged. -/
theorem c6_normalize_grammar_idem (raw s : String)
    (h : slugifyHashtag raw = some s) :
    isSlugB s = true ∧ slugifyHashtag s = some s :=
  slugify_sound h

/-- Witness for C6 at a concrete messy input. -/
theorem c6_normalize_grammar_idem_witness :
    isSlugB ("hello-world") = true ∧
    slugifyHashtag ("hello-world") = some ("hello-world") :=
  c6_normalize_grammar_idem ("Hello, World!") ("hello-world") (by decide)

/-! ## Exact-match short-circuit of the vocabulary mapper (claim C9) -/

theorem splitOnCharAux_exists_nonempty {α : Type} [DecidableEq α] (sep : α) :
    ∀ (l acc : List α), acc ≠ [] →
      ∃ t ∈ splitOnCharAux sep acc l, t ≠ [] := by
  intro l
  induction l with
  | nil =>
    intro acc hacc
    exact ⟨acc.reverse, List.mem_cons_self _ _, by simpa using hacc⟩
  | cons c cs ih =>
    intro acc hacc
    simp only [splitOnCharAux]
    by_cases hc : c = sep
    · rw [if_pos hc]
      exact ⟨acc.reverse, List.mem_cons_self _ _, by simpa using hacc⟩
    · rw [if_neg hc]
      exact ih (c :: acc) (by simp)

/-- A valid slug has at least one hyphen-token. -/
theorem tokeniseSlug_ne_nil {s : String} (hs : isSlugB s = true) :
    tokeniseSlug s ≠ [] := by
  simp only [isSlugB, Bool.and_eq_true, decide_eq_true_eq] at hs
  obtain ⟨⟨⟨⟨⟨hchars, hedge⟩, hrev⟩, hnd⟩, hlen⟩, hstop⟩ := hs
  unfold tokeniseSlug splitOnChar
  cases hl : s.toList with
  | nil => rw [hl] at hlen; simp at hlen
  | cons c rest =>
    rw [hl] at hedge
    have hc : ¬(c = '-') := by
      simpa [noEdgeHyphenB, isHyph] using hedge
    simp only [splitOnCharAux, if_neg hc]
    obtain ⟨t, ht, htn⟩ := splitOnCharAux_exists_nonempty '-' rest [c] (by simp)
    intro hcon
    have htf : t ∈ (splitOnCharAux '-' [c] rest).filter (fun t => !t.isEmpty) := by
      apply List.mem_filter.mpr
      exact ⟨ht, by simpa [List.isEmpty_iff] using htn⟩
    have := mem_uniqueStable.mpr htf
    rw [hcon] at this
    simp at this

theorem mapToCacheGo_exact {c : String} {tks : List (List Char)} {th : ℚ} :
    ∀ (l : List String) (best : String) (bs : ℚ), c ∈ l →
      mapToCacheGo c tks th l best bs = ⟨c, 1, some c⟩ := by
  intro l
  induction l with
  | nil => intro best bs h; simp at h
  | cons e rest ih =>
    intro best bs h
    simp only [mapToCacheGo]
    by_cases he : e = c
    · subst he; simp
    · rw [if_neg he]
      have hc : c ∈ rest := by
        rcases List.mem_cons.mp h with h' | h'
        · exact absurd h'.symm he
        · exact h'
      split
      · exact ih _ _ hc
      · split
        · split
          · exact ih _ _ hc
          · exact ih _ _ hc
        · split
          · exact ih _ _ hc
          · exact ih _ _ hc

/-- C9: a candidate that is itself a valid label and occurs verbatim in
the vocabulary is returned unchanged with score exactly 1, regardless of
the threshold. -/
theorem c9_exact_match_short_circuit (c : String) (cache : List String)
    (threshold : ℚ) (hval : slugifyHashtag c = some c) (hmem : c ∈ cache) :
    mapToCache c cache threshold = ⟨c, 1, some c⟩ := by
  have hs := (slugify_sound hval).1
  have ht := tokeniseSlug_ne_nil hs
  unfold mapToCache
  rw [if_neg (by simpa [List.length_eq_zero] using ht)]
  exact mapToCacheGo_exact cache c 0 hmem

/-- Witness for C9: exact match with a threshold above 1. -/
theorem c9_exact_match_short_circuit_witness :
    mapToCache ("astro") [("web"), ("astro")] 5 = ⟨("astro"), 1, some ("astro")⟩ :=
  c9_exact_match_short_circuit ("astro") [("web"), ("astro")] 5
    (by decide) (by decide)

/-! ## Headings are extracted before code stripping (claim C2) -/

/-- C2 counterexample: `processFile` extracts headings from the raw body
(`extractHeadings(parsed.content)`), not from the code-stripped body, so a
`# text` line inside a fenced code block becomes a heading candidate.  The
third conjunct shows that the heading line is indeed inside the fenced
block (stripping removes it entirely). -/
theorem c2_counterexample :
    extractHeadings ("```\n# secret\n```") = [("secret")] ∧
    ("secret") ∈ extractRawCandidates ("title") ("```\n# secret\n```") [] 30 500 ∧
    stripCodeBlocks (("```\n# secret\n```").toList) = (" ").toList := by
  refine ⟨by decide, by decide, by decide⟩

/-- C2 amended: only keyword candidates are computed from the
code-stripped body; heading candidates are taken from every line of the
raw body, so a heading line inside a fenced or inline code span is
produced as a candidate (subject only to de-duplication and the candidate
cap). -/
theorem c2_amended_headings (title content : String) (tags : List String)
    (keywordLimit : Nat) (h : String) (hh : h ∈ extractHeadings content) :
    h ∈ uniqueStable ([title] ++ extractHeadings content ++ tags ++
      topKeywords (String.mk (stripCodeBlocks content.toList)) keywordLimit) := by
  apply mem_uniqueStable.mpr
  simp [hh]

/-- Witness for C2 (amended) at the fenced-heading document. -/
theorem c2_amended_headings_witness :
    ("secret") ∈ uniqueStable ([("t")] ++ extractHeadings ("```\n# secret\n```") ++
      ([] : List String) ++
      topKeywords (String.mk (stripCodeBlocks (("```\n# secret\n```").toList))) 30) :=
  c2_amended_headings ("t") ("```\n# secret\n```") [] 30 ("secret") (by decide)

/-! ## Stability of candidate extraction under the body rewrite
(towards claim C7).  The write-back only strips leading newlines and
appends one newline; headings and keywords are unchanged by that. -/

theorem isPrefixOf_append_single {pat : List Char} {c : Char} (hc : c ∉ pat) :
    ∀ l : List Char, pat.isPrefixOf (l ++ [c]) = pat.isPrefixOf l := by
  induction pat with
  | nil => intro l; cases l <;> rfl
  | cons p pr ih =>
    intro l
    cases l with
    | nil =>
      show List.isPrefixOf (p :: pr) [c] = false
      simp only [List.mem_cons] at hc
      have hpc : ¬(p = c) := fun h => hc (Or.inl h.symm)
      have hp : (p == c) = false := beq_false_of_ne hpc
      simp [List.isPrefixOf, hp]
    | cons x xs =>
      show List.isPrefixOf (p :: pr) (x :: (xs ++ [c])) = _
      simp only [List.isPrefixOf]
      rw [ih (by simp only [List.mem_cons] at hc; exact fun h => hc (Or.inr h)) xs]

theorem isPrefixOf_nil_false {pat : List Char} (hp : pat ≠ []) :
    pat.isPrefixOf ([] : List Char) = false := by
  cases pat with
  | nil => exact absurd rfl hp
  | cons p pr => rfl

theorem splitFirst_append_single {pat : List Char} {c : Char} (hc : c ∉ pat)
    (hp : pat ≠ []) :
    ∀ l : List Char,
      splitFirst pat (l ++ [c]) =
        match splitFirst pat l with
        | none => none
        | some (b, a) => some (b, a ++ [c]) := by
  intro l
  induction l with
  | nil =>
    show splitFirst pat [c] = _
    simp only [splitFirst]
    rw [show ([c] : List Char) = [] ++ [c] from rfl, isPrefixOf_append_single hc,
      isPrefixOf_nil_false hp]
    simp [splitFirst, isPrefixOf_nil_false hp]
  | cons x xs ih =>
    show splitFirst pat (x :: (xs ++ [c])) = _
    simp only [splitFirst]
    rw [show x :: (xs ++ [c]) = (x :: xs) ++ [c] from rfl,
      isPrefixOf_append_single hc]
    by_cases hpre : pat.isPrefixOf (x :: xs) = true
    · rw [hpre]
      simp only [if_true]
      have hlen : pat.length ≤ (x :: xs).length := by
        have : pat <+: x :: xs := by
          simpa [List.isPrefixOf_iff_prefix] using hpre
        exact this.length_le
      rw [show (x :: xs) ++ [c] = (x :: xs) ++ [c] from rfl,
        List.drop_append_of_le_length hlen]
    · have hpre' : pat.isPrefixOf (x :: xs) = false := by
        cases h : pat.isPrefixOf (x :: xs)
        · rfl
        · exact absurd h hpre
      rw [hpre']
      simp only [Bool.false_eq_true, if_false]
      rw [ih]
      cases splitFirst pat xs with
      | none => rfl
      | some q => cases q with | mk b a => rfl

theorem splitFirst_cons_of_not_mem {pat : List Char} (hp : pat ≠ [])
    {c : Char} (hc : c ∉ pat) (l : List Char) :
    splitFirst pat (c :: l) =
      (splitFirst pat l).map (fun q => (c :: q.1, q.2)) := by
  cases pat with
  | nil => exact absurd rfl hp
  | cons p pr =>
    have hcp : (p == c) = false := by
      apply beq_false_of_ne
      intro h
      exact hc (h ▸ List.mem_cons_self _ _)
    have hpre : List.isPrefixOf (p :: pr) (c :: l) = false := by
      simp [List.isPrefixOf, hcp]
    simp only [splitFirst, hpre, Bool.false_eq_true, if_false]

theorem stripDelimFuel_nofirst {pat : List Char} {l : List Char}
    (h : splitFirst pat l = none) :
    ∀ f, stripDelimFuel pat f l = l := by
  intro f
  cases f with
  | zero => rfl
  | succ g => simp only [stripDelimFuel, h]

theorem stripDelimFuel_cons {pat : List Char} (hp : pat ≠ []) {c : Char}
    (hc : c ∉ pat) (f₁ f₂ : Nat) (l : List Char)
    (h₁ : l.length + 1 < f₁) (h₂ : l.length < f₂) :
    stripDelimFuel pat f₁ (c :: l) = c :: stripDelimFuel pat f₂ l := by
  match f₁, f₂ with
  | g₁ + 1, g₂ + 1 =>
    have hplen : 1 ≤ pat.length := by
      cases pat with
      | nil => exact absurd rfl hp
      | cons a b => simp
    simp only [stripDelimFuel, splitFirst_cons_of_not_mem hp hc]
    cases hs₁ : splitFirst pat l with
    | none => simp only [Option.map_none']
    | some q =>
      cases q with
      | mk b rest =>
        simp only [Option.map_some']
        cases hs₂ : splitFirst pat rest with
        | none => rfl
        | some q₂ =>
          cases q₂ with
          | mk mid after =>
            have hl₁ := splitFirst_length hs₁
            have hl₂ := splitFirst_length hs₂
            have he : stripDelimFuel pat g₁ after = stripDelimFuel pat g₂ after := by
              apply stripDelimFuel_congr pat hp <;> omega
            dsimp only
            rw [he]
            simp

theorem stripDelimFuel_append {pat : List Char} (hp : pat ≠ []) {c : Char}
    (hc : c ∉ pat) :
    ∀ (f₁ f₂ : Nat) (l : List Char), l.length + 1 < f₁ → l.length < f₂ →
      stripDelimFuel pat f₁ (l ++ [c]) = stripDelimFuel pat f₂ l ++ [c] := by
  intro f₁
  induction f₁ with
  | zero => intro f₂ l h₁ h₂; omega
  | succ g₁ ih =>
    intro f₂ l h₁ h₂
    match f₂ with
    | 0 => omega
    | g₂ + 1 =>
      have hplen : 1 ≤ pat.length := by
        cases pat with
        | nil => exact absurd rfl hp
        | cons a b => simp
      simp only [stripDelimFuel, splitFirst_append_single hc hp l]
      cases hs₁ : splitFirst pat l with
      | none => rfl
      | some q =>
        cases q with
        | mk b rest =>
          dsimp only
          rw [splitFirst_append_single hc hp rest]
          cases hs₂ : splitFirst pat rest with
          | none => rfl
          | some q₂ =>
            cases q₂ with
            | mk mid after =>
              dsimp only
              have hl₁ := splitFirst_length hs₁
              have hl₂ := splitFirst_length hs₂
              have he : stripDelimFuel pat g₁ (after ++ [c]) =
                  stripDelimFuel pat g₂ after ++ [c] := by
                apply ih <;> omega
              rw [he]
              simp

theorem stripFenced_cons_nl (l : List Char) :
    stripFenced ('\n' :: l) = '\n' :: stripFenced l := by
  unfold stripFenced
  apply stripDelimFuel_cons (by decide) (by decide) <;> simp

theorem stripInline_cons_nl (l : List Char) :
    stripInline ('\n' :: l) = '\n' :: stripInline l := by
  unfold stripInline
  apply stripDelimFuel_cons (by decide) (by decide) <;> simp

theorem stripCodeBlocks_cons_nl (l : List Char) :
    stripCodeBlocks ('\n' :: l) = '\n' :: stripCodeBlocks l := by
  unfold stripCodeBlocks
  rw [stripFenced_cons_nl, stripInline_cons_nl]

theorem stripFenced_append_nl (l : List Char) :
    stripFenced (l ++ ['\n']) = stripFenced l ++ ['\n'] := by
  unfold stripFenced
  have h : (l ++ ['\n']).length + 1 = l.length + 2 := by simp
  rw [h]
  apply stripDelimFuel_append (by decide) (by decide) <;> omega

theorem stripInline_append_nl (l : List Char) :
    stripInline (l ++ ['\n']) = stripInline l ++ ['\n'] := by
  unfold stripInline
  have h : (l ++ ['\n']).length + 1 = l.length + 2 := by simp
  rw [h]
  apply stripDelimFuel_append (by decide) (by decide) <;> omega

theorem stripCodeBlocks_append_nl (l : List Char) :
    stripCodeBlocks (l ++ ['\n']) = stripCodeBlocks l ++ ['\n'] := by
  unfold stripCodeBlocks
  rw [stripFenced_append_nl, stripInline_append_nl]

theorem dropWhile_append_single {p : Char → Bool} {c : Char}
    (hc : p c = false) :
    ∀ l : List Char, (l ++ [c]).dropWhile p = l.dropWhile p ++ [c] := by
  intro l
  induction l with
  | nil => simp [List.dropWhile, hc]
  | cons x xs ih =>
    rw [List.cons_append, List.dropWhile_cons, List.dropWhile_cons]
    by_cases hx : p x = true
    · rw [if_pos hx, if_pos hx, ih]
    · have hx' : p x = false := by simpa using hx
      rw [if_neg (by simp [hx']), if_neg (by simp [hx']), List.cons_append]

theorem urlSchemeLen_cons_nl (l : List Char) :
    urlSchemeLen ('\n' :: l) = none := by
  unfold urlSchemeLen
  have h1 : ("https://".toList) = 'h' :: ("ttps://".toList) := rfl
  have h2 : ("http://".toList) = 'h' :: ("ttp://".toList) := rfl
  rw [h1, h2]
  simp [List.isPrefixOf]

theorem urlSchemeLen_append_nl (l : List Char) :
    urlSchemeLen (l ++ ['\n']) = urlSchemeLen l := by
  unfold urlSchemeLen
  rw [isPrefixOf_append_single (by decide) l,
    isPrefixOf_append_single (by decide) l]

theorem urlSchemeLen_le {l : List Char} {n : Nat}
    (h : urlSchemeLen l = some n) : n ≤ l.length := by
  unfold urlSchemeLen at h
  split at h
  · rename_i hpre
    have hpl : ("https://".toList) <+: l := by
      simpa [List.isPrefixOf_iff_prefix] using hpre
    have h8 := hpl.length_le
    have h8' : ("https://".toList).length = 8 := rfl
    simp only [Option.some.injEq] at h
    omega
  · split at h
    · rename_i hpre
      have hpl : ("http://".toList) <+: l := by
        simpa [List.isPrefixOf_iff_prefix] using hpre
      have h7 := hpl.length_le
      have h7' : ("http://".toList).length = 7 := rfl
      simp only [Option.some.injEq] at h
      omega
    · simp at h

theorem stripUrls_cons_nl (l : List Char) :
    stripUrls ('\n' :: l) = '\n' :: stripUrls l := by
  unfold stripUrls
  show stripUrlsFuel (('\n' :: l).length + 1) ('\n' :: l) =
    '\n' :: stripUrlsFuel (l.length + 1) l
  have h : ('\n' :: l).length + 1 = (l.length + 1) + 1 := by simp
  rw [h]
  simp only [stripUrlsFuel, urlSchemeLen_cons_nl]

theorem stripUrlsFuel_append_nl :
    ∀ (f₁ f₂ : Nat) (l : List Char), l.length + 1 < f₁ → l.length < f₂ →
      stripUrlsFuel f₁ (l ++ ['\n']) = stripUrlsFuel f₂ l ++ ['\n'] := by
  intro f₁
  induction f₁ with
  | zero => intro f₂ l h₁ h₂; omega
  | succ g₁ ih =>
    intro f₂ l h₁ h₂
    match f₂ with
    | 0 => omega
    | g₂ + 1 =>
      cases l with
      | nil =>
        show stripUrlsFuel (g₁ + 1) ['\n'] = stripUrlsFuel (g₂ + 1) [] ++ ['\n']
        simp only [stripUrlsFuel, urlSchemeLen_cons_nl]
        cases g₁ with
        | zero => simp at h₁
        | succ g => rfl
      | cons c cs =>
        rw [List.cons_append]
        simp only [stripUrlsFuel]
        rw [show c :: (cs ++ ['\n']) = (c :: cs) ++ ['\n'] from rfl,
          urlSchemeLen_append_nl]
        have hcs : stripUrlsFuel g₁ (cs ++ ['\n']) =
            stripUrlsFuel g₂ cs ++ ['\n'] := by
          apply ih <;> (simp only [List.length_cons] at h₁ h₂ ⊢; omega)
        cases hu : urlSchemeLen (c :: cs) with
        | none => simp [hcs]
        | some n =>
          dsimp only
          have hn := urlSchemeLen_le hu
          have hd : List.drop n ((c :: cs) ++ ['\n']) =
              List.drop n (c :: cs) ++ ['\n'] :=
            List.drop_append_of_le_length hn
          rw [hd]
          cases hr : (c :: cs).drop n with
          | nil =>
            simp only [List.nil_append]
            rw [if_pos (by decide)]
            simp [hcs]
          | cons d ds =>
            rw [List.cons_append]
            dsimp only
            by_cases hwd : jsWs d = true
            · rw [if_pos hwd, if_pos hwd]
              simp [hcs]
            · have hwd2 : jsWs d = false := by simpa using hwd
              rw [if_neg (by simp [hwd2]), if_neg (by simp [hwd2])]
              rw [show d :: (ds ++ ['\n']) = (d :: ds) ++ ['\n'] from rfl]
              rw [dropWhile_append_single (by simp [jsWs]) (d :: ds)]
              have hlen2 : ((d :: ds).dropWhile (fun e => !jsWs e)).length ≤
                  (d :: ds).length :=
                (List.dropWhile_sublist _).length_le
              have hlen3 : (d :: ds).length = (c :: cs).length - n := by
                rw [← hr]; simp
              have hn1 := urlSchemeLen_pos hu
              have he2 : stripUrlsFuel g₁
                  ((d :: ds).dropWhile (fun e => !jsWs e) ++ ['\n']) =
                  stripUrlsFuel g₂ ((d :: ds).dropWhile (fun e => !jsWs e)) ++
                    ['\n'] := by
                apply ih <;>
                  (simp only [List.length_cons] at h₁ h₂ hlen2 hlen3 ⊢; omega)
              rw [he2]
              simp

theorem stripUrls_append_nl (l : List Char) :
    stripUrls (l ++ ['\n']) = stripUrls l ++ ['\n'] := by
  unfold stripUrls
  have h : (l ++ ['\n']).length + 1 = l.length + 2 := by simp
  rw [h]
  apply stripUrlsFuel_append_nl <;> omega

/-- The collapse-whitespace worker's flag only affects the leading
whitespace run, which a subsequent `dropWhile jsWs` removes anyway. -/
theorem dropWhile_collapseWsAux (l : List Char) (b₁ b₂ : Bool) :
    (collapseWsAux b₁ l).dropWhile jsWs = (collapseWsAux b₂ l).dropWhile jsWs := by
  cases l with
  | nil => rfl
  | cons c cs =>
    by_cases hc : jsWs c = true
    · have key : ∀ b : Bool, (collapseWsAux b (c :: cs)).dropWhile jsWs =
          (collapseWsAux true cs).dropWhile jsWs := by
        intro b
        cases b
        · have h1 : collapseWsAux false (c :: cs) = ' ' :: collapseWsAux true cs := by
            simp [collapseWsAux, hc]
          rw [h1, List.dropWhile_cons_of_pos (show jsWs ' ' = true by decide)]
        · have h1 : collapseWsAux true (c :: cs) = collapseWsAux true cs := by
            simp [collapseWsAux, hc]
          rw [h1]
      rw [key b₁, key b₂]
    · have hc2 : jsWs c = false := by simpa using hc
      have h1 : ∀ b : Bool, collapseWsAux b (c :: cs) = c :: collapseWsAux false cs := by
        intro b; cases b <;> simp [collapseWsAux, hc2]
      rw [h1 b₁, h1 b₂]

/-- Prepending a whitespace character before collapse-and-trim is a no-op. -/
theorem jsTrim_collapseWs_cons_ws {w : Char} (hw : jsWs w = true) (l : List Char) :
    jsTrim (collapseWs (w :: l)) = jsTrim (collapseWs l) := by
  unfold jsTrim collapseWs
  have h1 : collapseWsAux false (w :: l) = ' ' :: collapseWsAux true l := by
    simp [collapseWsAux, hw]
  rw [h1, List.dropWhile_cons_of_pos (show jsWs ' ' = true by decide),
    dropWhile_collapseWsAux l true false]

theorem keepAllowedElseSpace_cons_nl (l : List Char) :
    keepAllowedElseSpace ('\n' :: l) = '\n' :: keepAllowedElseSpace l := by
  simp only [keepAllowedElseSpace, List.map_cons]
  rw [if_pos (by decide)]

/-- A leading newline never changes the extracted word list. -/
theorem wordsOfChars_cons_nl (l : List Char) :
    wordsOfChars ('\n' :: l) = wordsOfChars l := by
  have h : jsTrim (collapseWs (keepAllowedElseSpace (stripUrls
      (('\n' :: l).map Char.toLower)))) =
      jsTrim (collapseWs (keepAllowedElseSpace (stripUrls
      (l.map Char.toLower)))) := by
    rw [List.map_cons, show Char.toLower '\n' = '\n' from by decide,
      stripUrls_cons_nl, keepAllowedElseSpace_cons_nl,
      jsTrim_collapseWs_cons_ws (show jsWs '\n' = true by decide)]
  simp only [wordsOfChars]
  rw [h]

/-- Appending one whitespace character to the collapse-worker input either
adds one trailing space or changes nothing. -/
theorem collapseWsAux_append_ws {w : Char} (hw : jsWs w = true) :
    ∀ (l : List Char) (b : Bool),
      collapseWsAux b (l ++ [w]) = collapseWsAux b l ++ [' '] ∨
      collapseWsAux b (l ++ [w]) = collapseWsAux b l := by
  intro l
  induction l with
  | nil =>
    intro b
    cases b
    · left; simp [collapseWsAux, hw]
    · right; simp [collapseWsAux, hw]
  | cons c cs ih =>
    intro b
    rw [List.cons_append]
    by_cases hc : jsWs c = true
    · have e1 : ∀ xs, collapseWsAux true (c :: xs) = collapseWsAux true xs := by
        intro xs; simp [collapseWsAux, hc]
      have e2 : ∀ xs, collapseWsAux false (c :: xs) = ' ' :: collapseWsAux true xs := by
        intro xs; simp [collapseWsAux, hc]
      cases b
      · rcases ih true with h | h
        · left; rw [e2, e2, h, List.cons_append]
        · right; rw [e2, e2, h]
      · rcases ih true with h | h
        · left; rw [e1, e1, h]
        · right; rw [e1, e1, h]
    · have hc2 : jsWs c = false := by simpa using hc
      have e3 : ∀ b' xs, collapseWsAux b' (c :: xs) = c :: collapseWsAux false xs := by
        intro b' xs; cases b' <;> simp [collapseWsAux, hc2]
      rcases ih false with h | h
      · left; rw [e3, e3, h, List.cons_append]
      · right; rw [e3, e3, h]

/-- JS `trim` absorbs one appended whitespace character. -/
theorem jsTrim_append_ws {w : Char} (hw : jsWs w = true) (z : List Char) :
    jsTrim (z ++ [w]) = jsTrim z := by
  unfold jsTrim
  by_cases hz : z.dropWhile jsWs = []
  · have h2 : (z ++ [w]).dropWhile jsWs = [] := by
      rw [List.dropWhile_eq_nil_iff] at hz ⊢
      intro x hx
      rcases List.mem_append.mp hx with h | h
      · exact hz x h
      · rw [List.mem_singleton.mp h]; exact hw
    rw [hz, h2]
  · rw [List.dropWhile_append, if_neg (by simpa [List.isEmpty_iff] using hz)]
    rw [List.reverse_append, List.reverse_singleton, List.singleton_append,
      List.dropWhile_cons_of_pos hw]

/-- Appending a whitespace character before collapse-and-trim is a no-op. -/
theorem jsTrim_collapseWs_append_ws {w : Char} (hw : jsWs w = true) (l : List Char) :
    jsTrim (collapseWs (l ++ [w])) = jsTrim (collapseWs l) := by
  unfold collapseWs
  rcases collapseWsAux_append_ws hw l false with h | h
  · rw [h, jsTrim_append_ws (show jsWs ' ' = true by decide)]
  · rw [h]

/-- A trailing newline never changes the extracted word list. -/
theorem wordsOfChars_append_nl (l : List Char) :
    wordsOfChars (l ++ ['\n']) = wordsOfChars l := by
  have h : jsTrim (collapseWs (keepAllowedElseSpace (stripUrls
      ((l ++ ['\n']).map Char.toLower)))) =
      jsTrim (collapseWs (keepAllowedElseSpace (stripUrls
      (l.map Char.toLower)))) := by
    rw [List.map_append,
      show (['\n'] : List Char).map Char.toLower = ['\n'] from by decide,
      stripUrls_append_nl]
    rw [show keepAllowedElseSpace (stripUrls (l.map Char.toLower) ++ ['\n']) =
        keepAllowedElseSpace (stripUrls (l.map Char.toLower)) ++ ['\n'] from by
      simp only [keepAllowedElseSpace, List.map_append, List.map_cons,
        List.map_nil]
      rw [if_pos (by decide)]]
    exact jsTrim_collapseWs_append_ws (show jsWs '\n' = true by decide) _
  simp only [wordsOfChars]
  rw [h]

/-- Consuming the leading newline run does not change the words of the
code-stripped body. -/
theorem words_stripCode_dropNl (l : List Char) :
    wordsOfChars (stripCodeBlocks (l.dropWhile (fun c => c = '\n'))) =
    wordsOfChars (stripCodeBlocks l) := by
  induction l with
  | nil => rfl
  | cons c cs ih =>
    by_cases hc : c = '\n'
    · subst hc
      rw [List.dropWhile_cons_of_pos (by simp), stripCodeBlocks_cons_nl,
        wordsOfChars_cons_nl]
      exact ih
    · rw [List.dropWhile_cons_of_neg (by simp [hc])]

/-- The characters of the rewritten body: original body with the leading
newline run removed and one newline appended. -/
theorem writeBackBody_toList (content : String) :
    (writeBackBody content).toList =
    content.toList.dropWhile (fun c => c = '\n') ++ ['\n'] := rfl

/-- The word list of the code-stripped body is invariant under the body
rewrite performed on write-back. -/
theorem words_writeBack (content : String) :
    wordsOfChars (stripCodeBlocks (writeBackBody content).toList) =
    wordsOfChars (stripCodeBlocks content.toList) := by
  rw [writeBackBody_toList, stripCodeBlocks_append_nl, wordsOfChars_append_nl,
    words_stripCode_dropNl]

/-- The keyword ranking of the code-stripped body is invariant under the
body rewrite. -/
theorem topKeywords_writeBack (content : String) (limit : Nat) :
    topKeywords (String.mk (stripCodeBlocks (writeBackBody content).toList)) limit =
    topKeywords (String.mk (stripCodeBlocks content.toList)) limit := by
  unfold topKeywords extractWords
  rw [show (String.mk (stripCodeBlocks (writeBackBody content).toList)).toList =
      stripCodeBlocks (writeBackBody content).toList from rfl,
    show (String.mk (stripCodeBlocks content.toList)).toList =
      stripCodeBlocks content.toList from rfl,
    words_writeBack]

/-- Appending the separator to the split input appends one empty piece. -/
theorem splitOnCharAux_append_sep {α : Type} [DecidableEq α] (sep : α) :
    ∀ (l acc : List α),
      splitOnCharAux sep acc (l ++ [sep]) = splitOnCharAux sep acc l ++ [[]] := by
  intro l
  induction l with
  | nil => intro acc; simp [splitOnCharAux]
  | cons c cs ih =>
    intro acc
    rw [List.cons_append]
    by_cases hc : c = sep
    · simp only [splitOnCharAux, hc, if_true]
      rw [ih, List.cons_append]
    · simp only [splitOnCharAux, if_neg hc]
      exact ih (c :: acc)

theorem parseHeading_nil : parseHeading [] = none := by decide

/-- A leading newline contributes an empty line, which is no heading. -/
theorem headings_dropNl (l : List Char) :
    (splitOnChar '\n' (l.dropWhile (fun c => c = '\n'))).filterMap parseHeading =
    (splitOnChar '\n' l).filterMap parseHeading := by
  induction l with
  | nil => rfl
  | cons c cs ih =>
    by_cases hc : c = '\n'
    · subst hc
      rw [List.dropWhile_cons_of_pos (by simp)]
      have h1 : splitOnChar '\n' ('\n' :: cs) = [] :: splitOnChar '\n' cs := by
        simp [splitOnChar, splitOnCharAux]
      rw [h1, List.filterMap_cons, parseHeading_nil]
      exact ih
    · rw [List.dropWhile_cons_of_neg (by simp [hc])]

/-- Heading extraction is invariant under the body rewrite. -/
theorem extractHeadings_writeBack (content : String) :
    extractHeadings (writeBackBody content) = extractHeadings content := by
  unfold extractHeadings
  rw [writeBackBody_toList]
  have h2 : (splitOnChar '\n'
      (content.toList.dropWhile (fun c => c = '\n') ++ ['\n'])).filterMap
        parseHeading =
      (splitOnChar '\n' content.toList).filterMap parseHeading := by
    unfold splitOnChar
    rw [splitOnCharAux_append_sep, List.filterMap_append]
    have h3 : List.filterMap parseHeading [([] : List Char)] = [] := by
      rw [List.filterMap_cons, parseHeading_nil]; rfl
    rw [h3, List.append_nil]
    exact headings_dropNl content.toList
  rw [h2]

/-- The candidate list of a run on the rewritten body equals that of the
original body. -/
theorem extractRawCandidates_writeBack (title : String) (content : String)
    (tags : List String) (kl cl : Nat) :
    extractRawCandidates title (writeBackBody content) tags kl cl =
    extractRawCandidates title content tags kl cl := by
  unfold extractRawCandidates
  rw [extractHeadings_writeBack, topKeywords_writeBack]

theorem getHashtagsRaw_writeBack (fm : List (String × MetaVal))
    (combined : List String) :
    getHashtagsRaw (writeBackMeta fm combined) = some combined := by
  unfold getHashtagsRaw writeBackMeta
  rw [lookup_setKey_same fm _ _]

theorem getTitle_writeBack (fm : List (String × MetaVal))
    (combined : List String) :
    getTitleFromFrontmatter (writeBackMeta fm combined) =
    getTitleFromFrontmatter fm := by
  unfold getTitleFromFrontmatter writeBackMeta
  rw [lookup_setKey_other (by decide) fm _]

theorem getTags_writeBack (fm : List (String × MetaVal))
    (combined : List String) :
    getTags (writeBackMeta fm combined) = getTags fm := by
  unfold getTags writeBackMeta
  rw [lookup_setKey_other (by decide) fm _]

/-- The mapper returns either the candidate itself, a vocabulary entry, or
the running best (itself one of the former two at the call sites). -/
theorem mapToCacheGo_mapped (candidate : String) (candTokens : List (List Char))
    (threshold : ℚ) :
    ∀ (l : List String) (best : String) (bestScore : ℚ),
      (mapToCacheGo candidate candTokens threshold l best bestScore).mapped =
        candidate ∨
      (mapToCacheGo candidate candTokens threshold l best bestScore).mapped ∈ l ∨
      (mapToCacheGo candidate candTokens threshold l best bestScore).mapped =
        best := by
  intro l
  induction l with
  | nil =>
    intro best bestScore
    simp only [mapToCacheGo]
    split
    · right; right; rfl
    · left; rfl
  | cons e rest ih =>
    intro best bestScore
    have step : ∀ (b : String) (s : ℚ), b = e ∨ b = best →
        (mapToCacheGo candidate candTokens threshold rest b s).mapped =
          candidate ∨
        (mapToCacheGo candidate candTokens threshold rest b s).mapped ∈
          e :: rest ∨
        (mapToCacheGo candidate candTokens threshold rest b s).mapped =
          best := by
      intro b s hb
      rcases ih b s with h | h | h
      · exact Or.inl h
      · exact Or.inr (Or.inl (List.mem_cons_of_mem _ h))
      · rcases hb with rfl | rfl
        · refine Or.inr (Or.inl ?_)
          rw [h]; exact List.mem_cons_self _ _
        · exact Or.inr (Or.inr h)
    simp only [mapToCacheGo]
    split
    · right; left; exact List.mem_cons_self e rest
    · split
      · exact step best bestScore (Or.inr rfl)
      · split <;> try split
        all_goals
          first
          | exact step e _ (Or.inl rfl)
          | exact step best bestScore (Or.inr rfl)

/-- Source `mapToCache` maps a candidate either to itself or to some
vocabulary (cache) entry. -/
theorem mapToCache_mapped (candidate : String) (cache : List String)
    (threshold : ℚ) :
    (mapToCache candidate cache threshold).mapped = candidate ∨
    (mapToCache candidate cache threshold).mapped ∈ cache := by
  simp only [mapToCache]
  split
  · left; rfl
  · rcases mapToCacheGo_mapped candidate _ threshold cache candidate 0 with
      h | h | h
    · exact Or.inl h
    · exact Or.inr h
    · exact Or.inl h

/-- The denylist filter only keeps items that were offered to it. -/
theorem kept_subset (newItems denylist : List String) (mode : DenylistMode) :
    ∀ x ∈ (filterNewWithDenylist newItems denylist mode).kept, x ∈ newItems := by
  intro x hx
  unfold filterNewWithDenylist at hx
  split at hx
  · exact hx
  · cases mode with
    | exact => exact List.mem_of_mem_filter hx
    | glob => exact List.mem_of_mem_filter hx

theorem filterMap_eq_self_of {α : Type} {f : α → Option α} :
    ∀ {l : List α}, (∀ x ∈ l, f x = some x) → l.filterMap f = l := by
  intro l
  induction l with
  | nil => intro _; rfl
  | cons a t ih =>
    intro h
    rw [List.filterMap_cons_some (h a (List.mem_cons_self a t)),
      ih (fun x hx => h x (List.mem_cons_of_mem a hx))]

theorem finishProcess_final (raw newRaw : String) (added combined : List String) :
    (finishProcess raw newRaw added combined).final = combined := by
  unfold finishProcess
  split
  · rfl
  · split <;> rfl

theorem finishProcess_nil_added (raw newRaw : String) (combined : List String) :
    finishProcess raw newRaw [] combined = ⟨false, [], combined⟩ := rfl

/-- Any accepted slug stored among the existing normalized labels is a
`slugifyHashtag` fixed point. -/
theorem mem_slugged_fixed {raws : List String} {x : String}
    (hx : x ∈ uniqueStable (raws.filterMap slugifyHashtag)) :
    slugifyHashtag x = some x := by
  rcases List.mem_filterMap.mp (mem_uniqueStable.mp hx) with ⟨raw, _, hraw⟩
  exact (slugify_sound hraw).2

/-- Running the candidate pipeline a second time, with the first run's
final labels as the existing labels and the same candidates, changes
nothing: the final list is reproduced and nothing counts as added.
Requires every vocabulary entry to be normalization-fixed (true of every
cache the program itself writes). -/
theorem processCore_idem (existingRaw cands denylist : List String)
    (mode : DenylistMode) (cache : List String) (threshold : ℚ) (maxCount : Nat)
    (hcache : ∀ v ∈ cache, slugifyHashtag v = some v) :
    (processCore
        (processCore existingRaw cands denylist mode cache threshold
          maxCount).combined
        cands denylist mode cache threshold maxCount).combined =
      (processCore existingRaw cands denylist mode cache threshold
        maxCount).combined ∧
    (processCore
        (processCore existingRaw cands denylist mode cache threshold
          maxCount).combined
        cands denylist mode cache threshold maxCount).added = [] := by
  simp only [processCore]
  set existing₁ := uniqueStable (existingRaw.filterMap slugifyHashtag) with hE
  set gAll := uniqueStable (cands.filterMap slugifyHashtag) with hG
  set mN := (filterNewWithDenylist gAll denylist mode).kept.map
    (fun c => (mapToCache c cache threshold).mapped) with hM
  set U := uniqueStable (existing₁ ++ mN) with hU
  set comb := U.take maxCount with hComb
  have hUnodup : U.Nodup := by rw [hU]; exact nodup_uniqueStable
  have hCombNodup : comb.Nodup := by
    rw [hComb]; exact hUnodup.sublist (List.take_sublist _ _)
  have hfix : ∀ x ∈ comb, slugifyHashtag x = some x := by
    intro x hx
    have hxU : x ∈ U := by
      rw [hComb] at hx; exact (List.take_sublist _ _).mem hx
    rw [hU] at hxU
    rcases List.mem_append.mp (mem_uniqueStable.mp hxU) with h | h
    · rw [hE] at h; exact mem_slugged_fixed h
    · rw [hM] at h
      rcases List.mem_map.mp h with ⟨c, hc, hmap⟩
      have hcand : c ∈ gAll := kept_subset gAll denylist mode c hc
      rw [hG] at hcand
      rcases List.mem_filterMap.mp (mem_uniqueStable.mp hcand) with ⟨raw, _, hraw⟩
      have hcfix := (slugify_sound hraw).2
      rcases mapToCache_mapped c cache threshold with hmc | hmc
      · rw [← hmap, hmc]; exact hcfix
      · rw [← hmap]; exact hcache _ hmc
  have hexist₂ : uniqueStable (comb.filterMap slugifyHashtag) = comb := by
    rw [filterMap_eq_self_of hfix, uniqueStable_of_nodup hCombNodup]
  rw [hexist₂]
  have hmain : (uniqueStable (comb ++ mN)).take maxCount = comb := by
    by_cases hlen : U.length ≤ maxCount
    · have hcomb_eq : comb = U := by
        rw [hComb]; exact List.take_of_length_le hlen
      rw [hcomb_eq]
      have habs : uniqueStable (U ++ mN) = U := by
        apply uniqueStable_absorb hUnodup
        intro x hx
        rw [hU]
        exact mem_uniqueStable.mpr (List.mem_append_right _ hx)
      rw [habs, List.take_of_length_le hlen]
    · push_neg at hlen
      have hle : maxCount ≤ comb.length := by
        rw [hComb, List.length_take]; omega
      have h1 := @combined_of_ge comb mN maxCount hCombNodup hle
      rw [h1, hComb, List.take_take, Nat.min_self]
  refine ⟨hmain, ?_⟩
  rw [hmain]
  exact filter_not_contains_eq_nil (fun x hx => hx)

/-- A string satisfying the slug grammar is a `slugifyHashtag` fixed
point. -/
theorem isSlug_fixed {s : String} (h : isSlugB s = true) :
    slugifyHashtag s = some s := by
  simp only [isSlugB, Bool.and_eq_true, List.all_eq_true, decide_eq_true_eq] at h
  obtain ⟨⟨⟨⟨⟨hchars, he1⟩, he2⟩, hnd⟩, hlen⟩, hstop⟩ := h
  simp only [slugifyHashtag]
  rw [slugCore_fixed hchars hnd he1 he2,
    show String.mk s.toList = s from rfl]
  rw [if_neg (by intro h0; rw [h0] at hlen; simp at hlen)]
  rw [if_neg (by omega)]
  rw [if_neg hstop]

/-- C7: processing is idempotent.  Re-running `processFile` on the written
output of a first run (metadata updated at the `hashtags` key, body with
leading newlines stripped and a trailing newline appended) with the same
configuration and the same vocabulary snapshot — a vocabulary of
well-formed labels, as the program itself only ever stores `slugifyHashtag`
outputs — produces an empty `added` list and reports no change. -/
theorem c7_idempotent
    (serialize₁ serialize₂ : List (String × MetaVal) → String → String)
    (fallbackTitle raw₁ raw₂ content : String) (fm : List (String × MetaVal))
    (denylist cache : List String) (mode : DenylistMode) (threshold : ℚ)
    (maxCount keywordLimit candidateLimit : Nat)
    (hcache : ∀ v ∈ cache, isSlugB v = true) :
    (processFileModel serialize₂ fallbackTitle raw₂
        (writeBackMeta fm
          (processFileModel serialize₁ fallbackTitle raw₁ fm content denylist
            mode cache threshold maxCount keywordLimit candidateLimit).final)
        (writeBackBody content) denylist mode cache threshold maxCount
        keywordLimit candidateLimit).added = [] ∧
    (processFileModel serialize₂ fallbackTitle raw₂
        (writeBackMeta fm
          (processFileModel serialize₁ fallbackTitle raw₁ fm content denylist
            mode cache threshold maxCount keywordLimit candidateLimit).final)
        (writeBackBody content) denylist mode cache threshold maxCount
        keywordLimit candidateLimit).changed = false := by
  have hfixc : ∀ v ∈ cache, slugifyHashtag v = some v :=
    fun v hv => isSlug_fixed (hcache v hv)
  have hfinal : (processFileModel serialize₁ fallbackTitle raw₁ fm content
      denylist mode cache threshold maxCount keywordLimit candidateLimit).final =
      (processCore ((getHashtagsRaw fm).getD [])
        (extractRawCandidates ((getTitleFromFrontmatter fm).getD fallbackTitle)
          content (getTags fm) keywordLimit candidateLimit)
        denylist mode cache threshold maxCount).combined := by
    simp only [processFileModel]
    exact finishProcess_final _ _ _ _
  rw [hfinal]
  have hidem := processCore_idem ((getHashtagsRaw fm).getD [])
    (extractRawCandidates ((getTitleFromFrontmatter fm).getD fallbackTitle)
      content (getTags fm) keywordLimit candidateLimit)
    denylist mode cache threshold maxCount hfixc
  simp only [processFileModel, getHashtagsRaw_writeBack, Option.getD_some,
    getTitle_writeBack, getTags_writeBack, extractRawCandidates_writeBack]
  rw [hidem.2, finishProcess_nil_added]
  exact ⟨rfl, rfl⟩

/-- Witness for C7 at a concrete document, with an empty vocabulary. -/
theorem c7_idempotent_witness :
    (∀ v ∈ ([] : List String), isSlugB v = true) ∧
    ((processFileModel (fun _ _ => ("y")) ("doc") ("r2")
        (writeBackMeta []
          (processFileModel (fun _ _ => ("x")) ("doc") ("r1") []
            ("# Alpha\nBeta gamma words\n") [] DenylistMode.exact []
            (3/5) 6 5 50).final)
        (writeBackBody ("# Alpha\nBeta gamma words\n")) [] DenylistMode.exact
        [] (3/5) 6 5 50).added = [] ∧
      (processFileModel (fun _ _ => ("y")) ("doc") ("r2")
        (writeBackMeta []
          (processFileModel (fun _ _ => ("x")) ("doc") ("r1") []
            ("# Alpha\nBeta gamma words\n") [] DenylistMode.exact []
            (3/5) 6 5 50).final)
        (writeBackBody ("# Alpha\nBeta gamma words\n")) [] DenylistMode.exact
        [] (3/5) 6 5 50).changed = false) :=
  ⟨by decide,
   c7_idempotent (fun _ _ => ("x")) (fun _ _ => ("y")) ("doc") ("r1") ("r2")
     ("# Alpha\nBeta gamma words\n") [] [] [] DenylistMode.exact (3/5) 6 5 50
     (by decide)⟩
